import Mathlib

/-!
Verification of the corporate-news-extraction repository.

This file shallowly embeds the two Python source files
(`article_content_extractor.py` and `news_url_extractor.py`) and proves or
refutes the frozen claims about them.  HTML documents (BeautifulSoup trees)
are modelled by a mutual inductive `Node`/`Forest` type so that every
traversal is structurally recursive and evaluable by the kernel.
-/

namespace NewsExtract

/- ## Python string primitives -/

/-- Python `str.lower` restricted to ASCII (all inputs in this development
are ASCII). -/
def pyLower (s : String) : String := ⟨s.data.map Char.toLower⟩

/-- Characters stripped by Python `str.strip()` (ASCII whitespace). -/
def pyWS (c : Char) : Bool :=
  c = ' ' || c = '\t' || c = '\n' || c = '\r' || c = '\x0b' || c = '\x0c'

def stripChars (l : List Char) : List Char :=
  ((l.dropWhile pyWS).reverse.dropWhile pyWS).reverse

/-- Python `str.strip()`. -/
def pyStrip (s : String) : String := ⟨stripChars s.data⟩

/-- Python `str.lstrip('/')`. -/
def lstripSlash (s : String) : String := ⟨s.data.dropWhile (· = '/')⟩

/-- Python `str.rstrip('/')`. -/
def rstripSlash (s : String) : String := ⟨(s.data.reverse.dropWhile (· = '/')).reverse⟩

/-- Substring occurrence on char lists: Python `pat in hay`
(equivalently a successful `re.search` of a literal pattern). -/
def subList : List Char → List Char → Bool
  | h, p => p.isPrefixOf h ||
      match h with
      | [] => false
      | _ :: t => subList t p

/-- Python `pat in s` (substring containment). -/
def strContains (s pat : String) : Bool := subList s.data pat.data

/-- Python `s.startswith(pat)`. -/
def strStarts (s pat : String) : Bool := pat.data.isPrefixOf s.data

/-- Python `s.endswith(pat)`. -/
def strEnds (s pat : String) : Bool := pat.data.reverse.isPrefixOf s.data.reverse

/-- An occurrence of `p` in `h` that is followed by `/` or by the end of the
string; this is the semantics of the social-media regexes
`(?:^|[/.])?domain\.com(?:/|$)` of `_is_social_media_url` (the leading group
is optional, hence vacuous). -/
def subFollowedBySlashOrEnd : List Char → List Char → Bool
  | h, p =>
      (p.isPrefixOf h &&
        (match h.drop p.length with
         | [] => true
         | c :: _ => c = '/')) ||
      match h with
      | [] => false
      | _ :: t => subFollowedBySlashOrEnd t p

/-- Python `s.split(sep)` for a single separator character. -/
def splitChar (sep : Char) (l : List Char) : List (List Char) :=
  match l with
  | [] => [[]]
  | c :: t =>
      let r := splitChar sep t
      if c = sep then [] :: r
      else match r with
           | [] => [[c]]
           | w :: ws => (c :: w) :: ws

/-- `re.split(r'[\s-]+', text)`: split on *runs* of whitespace and hyphens,
producing empty fields only at the borders (as Python does). -/
def splitRuns (isSep : Char → Bool) (l : List Char) : List (List Char) :=
  match l with
  | [] => [[]]
  | c :: t =>
      let r := splitRuns isSep t
      if isSep c then
        match t with
        | [] => [[], []]
        | c2 :: _ => if isSep c2 then r else [] :: r
      else
        match r with
        | [] => [[c]]
        | w :: ws => (c :: w) :: ws

def isDigit (c : Char) : Bool := '0' ≤ c && c ≤ '9'

def isAsciiAlpha (c : Char) : Bool := ('a' ≤ c && c ≤ 'z') || ('A' ≤ c && c ≤ 'Z')

def isAlnum (c : Char) : Bool := isAsciiAlpha c || isDigit c

/- ## Decimal rendering of naturals (the `{idx}` of Python f-strings) -/

def digitChar (n : Nat) : Char := Char.ofNat (48 + n)

/-- Fuelled decimal digits of `n` (most significant first). -/
def natDecAux : Nat → Nat → List Char
  | 0, _ => []
  | fuel + 1, n =>
      if n < 10 then [digitChar n]
      else natDecAux fuel (n / 10) ++ [digitChar (n % 10)]

/-- Decimal rendering of a natural, as Python `str(n)` / f-string `{n}`. -/
def natDec (n : Nat) : List Char := natDecAux (n + 1) n

def decodeDec (l : List Char) : Nat :=
  l.foldl (fun acc c => acc * 10 + (c.toNat - 48)) 0

theorem decodeDec_append (a b : List Char) :
    decodeDec (a ++ b) = b.foldl (fun acc c => acc * 10 + (c.toNat - 48)) (decodeDec a) := by
  simp [decodeDec, List.foldl_append]

theorem digitChar_toNat (n : Nat) (h : n < 10) : (digitChar n).toNat = 48 + n := by
  interval_cases n <;> rfl

theorem natDecAux_decode (fuel n : Nat) (h : n < fuel) :
    decodeDec (natDecAux fuel n) = n := by
  induction fuel generalizing n with
  | zero => omega
  | succ f ih =>
      by_cases h10 : n < 10
      · simp only [natDecAux, if_pos h10]
        simp [decodeDec, digitChar_toNat n h10]
      · simp only [natDecAux, if_neg h10]
        rw [decodeDec_append]
        have hq : n / 10 < f := by omega
        have := ih (n / 10) hq
        simp only [List.foldl]
        rw [this]
        have : (digitChar (n % 10)).toNat = 48 + n % 10 :=
          digitChar_toNat _ (Nat.mod_lt _ (by omega))
        rw [this]
        omega

theorem natDec_decode (n : Nat) : decodeDec (natDec n) = n :=
  natDecAux_decode (n + 1) n (Nat.lt_succ_self n)

theorem natDec_injective : Function.Injective natDec := by
  intro a b h
  have ha := natDec_decode a
  have hb := natDec_decode b
  rw [h] at ha
  omega

/- ## The DOM model -/

mutual
/-- A BeautifulSoup tree.  `elem` is a Tag (tag name, non-class attributes,
the multi-valued `class` attribute, children); `text` is a NavigableString.
The whole document (the `BeautifulSoup` object itself) is modelled as an
`elem` with tag name `"[document]"`, mirroring BS4: `find_all` never yields
the object it is invoked on, only descendants. -/
inductive Node where
  | elem (tag : String) (attrs : List (String × String))
      (classes : Option (List String)) (children : Forest)
  | text (s : String)
deriving DecidableEq

inductive Forest where
  | fnil
  | fcons (head : Node) (tail : Forest)
deriving DecidableEq
end

/-- Convert a `List Node` into a `Forest` (for writing concrete documents). -/
def Forest.ofList : List Node → Forest
  | [] => .fnil
  | n :: t => .fcons n (Forest.ofList t)

def Forest.toList : Forest → List Node
  | .fnil => []
  | .fcons n t => n :: Forest.toList t

/-- Element constructor without classes. -/
def el (tag : String) (attrs : List (String × String)) (children : List Node) : Node :=
  .elem tag attrs none (Forest.ofList children)

/-- Element constructor with a `class` attribute. -/
def elC (tag : String) (attrs : List (String × String)) (classes : List String)
    (children : List Node) : Node :=
  .elem tag attrs (some classes) (Forest.ofList children)

def txt (s : String) : Node := .text s

def Node.tagName : Node → String
  | .elem t _ _ _ => t
  | .text _ => ""

def Node.isElem : Node → Bool
  | .elem _ _ _ _ => true
  | .text _ => false

def Node.attrList : Node → List (String × String)
  | .elem _ a _ _ => a
  | .text _ => []

def Node.childForest : Node → Forest
  | .elem _ _ _ ch => ch
  | .text _ => .fnil

def Node.classAttr : Node → Option (List String)
  | .elem _ _ c _ => c
  | .text _ => none

/-- `tag.get(key)` for a non-`class` attribute: first binding wins
(BS4 attribute dicts have unique keys; lists model them faithfully via the
first occurrence). -/
def getAttr (n : Node) (key : String) : Option String :=
  (n.attrList.find? (fun p => p.1 = key)).map Prod.snd

/-- `tag[key] = value` (dict update: replace the existing binding in place,
else append). -/
def setAttr (a : List (String × String)) (key v : String) : List (String × String) :=
  match a with
  | [] => [(key, v)]
  | (k, w) :: t => if k = key then (k, v) :: t else (k, w) :: setAttr t key v

/-- Attribute presence, the semantics of `find_all(attrs={key: True})`. -/
def hasAttr (n : Node) (key : String) : Bool :=
  n.attrList.any (fun p => p.1 = key)

/-- Python truthiness of `tag.get(key)`: present with a non-empty value. -/
def truthyAttr (n : Node) (key : String) : Bool :=
  match getAttr n key with
  | some v => v ≠ ""
  | none => false

/- ### Traversals -/

mutual
/-- All element descendants of a node, itself included when it is an
element, in document (pre-)order. -/
def elemsN : Node → List Node
  | .text _ => []
  | .elem t a c ch => .elem t a c ch :: elemsF ch

def elemsF : Forest → List Node
  | .fnil => []
  | .fcons n t => elemsN n ++ elemsF t
end

/-- `soup.find_all()` (all element descendants, document order). -/
def descendantElems (n : Node) : List Node := elemsF n.childForest

/-- `find_all(tagname)`. -/
def findAllTag (n : Node) (tag : String) : List Node :=
  (descendantElems n).filter (fun e => e.tagName = tag)

mutual
/-- All text-node strings of a subtree in document order
(BS4 `element.strings` / the strings visited by `get_text`). -/
def stringsN : Node → List String
  | .text s => [s]
  | .elem _ _ _ ch => stringsF ch

def stringsF : Forest → List String
  | .fnil => []
  | .fcons n t => stringsN n ++ stringsF t
end

/-- `get_text(strip=True)`: concatenation of stripped descendant strings. -/
def getTextStrip (n : Node) : String :=
  String.join ((stringsN n).map pyStrip)

/-- `get_text()`: concatenation of raw descendant strings. -/
def getTextRaw (n : Node) : String :=
  String.join (stringsN n)

/-- `get_direct_text` of `_mark_content`: stripped direct text children,
joined with single spaces. -/
def directText (n : Node) : String :=
  let parts := (n.childForest.toList.filterMap (fun c =>
    match c with
    | .text s => if pyStrip s ≠ "" then some (pyStrip s) else none
    | .elem _ _ _ _ => none))
  String.intercalate " " parts

/- ## SoupCleaner (tree pruner & verifier), `article_content_extractor.py` -/

/-- `SoupCleaner.content_labels`. -/
def contentLabels : List String :=
  [ "ali-zx9v8k2m4p-title-type",
    "ali-zx9v8k2m4p-date-type",
    "ali-zx9v8k2m4p-content-type",
    "ali-zx9v8k2m4p-metadate_type",
    "ali-zx9v8k2m4p-table_header_p9m2",
    "ali-zx9v8k2m4p-table_cell_p9m2" ]

/-- The reserved unique-identifier attribute assigned by `_label_elements`. -/
def idAttr : String := "ali-zx9v8k2m4p"

/-- `SoupCleaner.structural_tags`. -/
def structuralTags : List String :=
  [ "html", "head", "body", "main", "article",
    "style", "script", "link", "meta",
    "nav", "header", "footer",
    "button", "form" ]

/-- `SoupCleaner._should_keep_element`: the element carries one of the
special labels with a truthy value. -/
def keepB (n : Node) : Bool := contentLabels.any (fun l => truthyAttr n l)

/-- `SoupCleaner._has_labeled_descendant`: some element descendant carries
a truthy label. -/
def hasLabeledDescB (n : Node) : Bool := (descendantElems n).any keepB

/-- `SoupCleaner._is_structural_element`. -/
def structuralB (n : Node) : Bool := structuralTags.contains n.tagName

mutual
/-- `SoupCleaner._process_element`.  `none` models `element.decompose()`;
text nodes are returned unchanged (the Python code skips
`NavigableString`s and case 3 only recurses into tag children). -/
def processElement : Node → Option Node
  | .text s => some (.text s)
  | .elem t a c ch =>
      if keepB (.elem t a c ch) then some (.elem t a c ch)
      else if !hasLabeledDescB (.elem t a c ch) then
        if structuralB (.elem t a c ch) then some (.elem t a c ch) else none
      else some (.elem t a c (processForest ch))

def processForest : Forest → Forest
  | .fnil => .fnil
  | .fcons n t =>
      match processElement n with
      | some n' => .fcons n' (processForest t)
      | none => processForest t
end

/-- `_process_element` applied at the body found by `create_clean_soup`
(the call mutates in place; a decomposed body would simply vanish, but the
`body` tag is structural so the `getD` default is never used on a body). -/
def processTop (n : Node) : Node := (processElement n).getD n

mutual
/-- Replace the first element named `body` (document order) by its pruned
form: the effect of `self.clean_soup.find('body')` + `_process_element`. -/
def replaceBodyN : Node → Option Node
  | .text _ => none
  | .elem t a c ch =>
      if t = "body" then some (processTop (.elem t a c ch))
      else
        match replaceBodyF ch with
        | some ch' => some (.elem t a c ch')
        | none => none

def replaceBodyF : Forest → Option Forest
  | .fnil => none
  | .fcons n t =>
      match replaceBodyN n with
      | some n' => some (.fcons n' t)
      | none =>
          match replaceBodyF t with
          | some t' => some (.fcons n t')
          | none => none
end

/-- `SoupCleaner.create_clean_soup`: deep-copy the labeled soup and prune
from its `body`; when no body exists the copy is returned unchanged. -/
def createCleanSoup (s : Node) : Node :=
  match s with
  | .text str => .text str
  | .elem t a c ch =>
      match replaceBodyF ch with
      | some ch' => .elem t a c ch'
      | none => .elem t a c ch

/-- The set (as a list) of `ali-zx9v8k2m4p` identifiers of the elements of
`n` bearing attribute `label`, cf. `verify_clean_soup`. -/
def labeledIds (label : String) (n : Node) : List (Option String) :=
  ((descendantElems n).filter (fun e => hasAttr e label)).map (fun e => getAttr e idAttr)

/-- Python `set(a) == set(b)`. -/
def listSetEq (a b : List (Option String)) : Bool :=
  (a.all (fun x => b.contains x)) && (b.all (fun x => a.contains x))

/-- `SoupCleaner.verify_clean_soup`. -/
def verifyCleanSoup (orig clean : Node) : Bool :=
  contentLabels.all (fun l => listSetEq (labeledIds l orig) (labeledIds l clean))

/-- A labeled document as produced by `ArticleExtractor`: whenever a label
attribute is present its value is non-empty (the extractor only ever writes
the fixed non-empty marker strings). -/
def wellLabeledElem (e : Node) : Bool :=
  contentLabels.all (fun l => !hasAttr e l || truthyAttr e l)

def wellLabeledB (n : Node) : Bool := (elemsN n).all wellLabeledElem

/- ### Pruning preserves labels -/

/-- `ali-zx9v8k2m4p` identifiers of the elements of the subtree of `n`
(itself included) satisfying `p`. -/
def filtIds (p : Node → Bool) (n : Node) : List (Option String) :=
  ((elemsN n).filter p).map (fun e => getAttr e idAttr)

def filtIdsF (p : Node → Bool) (f : Forest) : List (Option String) :=
  ((elemsF f).filter p).map (fun e => getAttr e idAttr)

/-- A predicate that only looks at an element's tag, attributes and classes
(not its children). -/
def AttrPred (p : Node → Bool) : Prop :=
  ∀ t a c ch ch', p (.elem t a c ch) = p (.elem t a c ch')

theorem keepB_elem_ext (t : String) (a : List (String × String))
    (c : Option (List String)) (ch ch' : Forest) :
    keepB (.elem t a c ch) = keepB (.elem t a c ch') := rfl

theorem getAttr_elem_ext (t : String) (a : List (String × String))
    (c : Option (List String)) (ch ch' : Forest) (key : String) :
    getAttr (.elem t a c ch) key = getAttr (.elem t a c ch') key := rfl

theorem elemsN_elem (t : String) (a : List (String × String))
    (c : Option (List String)) (ch : Forest) :
    elemsN (.elem t a c ch) = .elem t a c ch :: elemsF ch := by
  simp [elemsN]

theorem descendantElems_elem (t : String) (a : List (String × String))
    (c : Option (List String)) (ch : Forest) :
    descendantElems (.elem t a c ch) = elemsF ch := rfl

mutual
/-- Core preservation property of `_process_element`: for any
attribute-determined predicate `p` implying `_should_keep_element` on the
subtree, the `p`-elements (with their identifiers) survive pruning exactly;
and a decomposed subtree contained none. -/
theorem processN_filter (p : Node → Bool) (hattr : AttrPred p) (n : Node)
    (hp : ∀ e ∈ elemsN n, p e = true → keepB e = true) :
    (∀ r, processElement n = some r → filtIds p r = filtIds p n) ∧
    (processElement n = none → filtIds p n = []) := by
  cases n with
  | text s =>
      refine ⟨fun r hr => ?_, fun hr => by simp [processElement] at hr⟩
      simp [processElement] at hr
      subst hr
      rfl
  | elem t a c ch =>
      by_cases hk : keepB (.elem t a c ch) = true
      · refine ⟨fun r hr => ?_, fun hr => ?_⟩
        · simp [processElement, hk] at hr
          subst hr
          rfl
        · simp [processElement, hk] at hr
      · by_cases hd : hasLabeledDescB (.elem t a c ch) = true
        · refine ⟨fun r hr => ?_, fun hr => ?_⟩
          · simp [processElement, hk, hd] at hr
            subst hr
            have hroot : p (.elem t a c (processForest ch)) = false := by
              rw [hattr t a c (processForest ch) ch]
              by_cases hpc : p (.elem t a c ch) = true
              · exact absurd (hp (Node.elem t a c ch) (by rw [elemsN_elem]; exact List.mem_cons_self _ _) hpc) (by simpa using hk)
              · simpa using hpc
            have hroot2 : p (.elem t a c ch) = false := by
              by_cases hpc : p (.elem t a c ch) = true
              · exact absurd (hp (Node.elem t a c ch) (by rw [elemsN_elem]; exact List.mem_cons_self _ _) hpc) (by simpa using hk)
              · simpa using hpc
            have htail : filtIdsF p (processForest ch) = filtIdsF p ch :=
              processF_filter p hattr ch
                (fun e he hpe => hp e (by simp [elemsN_elem, he]) hpe)
            simp only [filtIds, elemsN_elem, List.filter_cons, hroot, hroot2]
            simpa [filtIdsF] using htail
          · simp [processElement, hk, hd] at hr
        · refine ⟨fun r hr => ?_, fun hr => ?_⟩
          · simp only [processElement, if_neg hk, if_neg hd] at hr
            rw [if_pos (by simpa using hd)] at hr
            split at hr
            · injection hr with h
              subst h
              rfl
            · exact absurd hr (by simp)
          · -- decomposed: no `p`-element existed in the subtree
            simp only [filtIds, List.map_eq_nil_iff, List.filter_eq_nil_iff]
            intro e he
            rw [elemsN_elem] at he
            rcases List.mem_cons.mp he with h | h
            · subst h
              intro hpe
              exact absurd (hp (Node.elem t a c ch) (by rw [elemsN_elem]; exact List.mem_cons_self _ _) (by simpa using hpe)) (by simpa using hk)
            · intro hpe
              have hke : keepB e = true := hp e (by simp [elemsN_elem, h]) (by simpa using hpe)
              have : hasLabeledDescB (.elem t a c ch) = true := by
                simp only [hasLabeledDescB, descendantElems_elem, List.any_eq_true]
                exact ⟨e, h, hke⟩
              exact absurd this hd

theorem processF_filter (p : Node → Bool) (hattr : AttrPred p) (f : Forest)
    (hp : ∀ e ∈ elemsF f, p e = true → keepB e = true) :
    filtIdsF p (processForest f) = filtIdsF p f := by
  cases f with
  | fnil => rfl
  | fcons n t =>
      have hpn : ∀ e ∈ elemsN n, p e = true → keepB e = true :=
        fun e he hpe => hp e (by simp [elemsF, he]) hpe
      have hpt : ∀ e ∈ elemsF t, p e = true → keepB e = true :=
        fun e he hpe => hp e (by simp [elemsF, he]) hpe
      have hn := processN_filter p hattr n hpn
      have ht := processF_filter p hattr t hpt
      cases hpe : processElement n with
      | some n' =>
          have h1 : filtIds p n' = filtIds p n := hn.1 n' hpe
          simp only [processForest, hpe]
          simp only [filtIdsF, elemsF, List.filter_append, List.map_append]
          rw [show ((elemsN n').filter p).map (fun e => getAttr e idAttr) = filtIds p n' from rfl,
              h1]
          simp [filtIds, filtIdsF] at ht ⊢
          rw [ht]
      | none =>
          have h0 : filtIds p n = [] := hn.2 hpe
          simp only [processForest, hpe]
          simp only [filtIdsF, elemsF, List.filter_append, List.map_append] at ht ⊢
          rw [ht]
          have : ((elemsN n).filter p).map (fun e => getAttr e idAttr) = [] := h0
          rw [this]
          simp
end

theorem filtIds_elem (p : Node → Bool) (t : String) (a : List (String × String))
    (c : Option (List String)) (ch : Forest) :
    filtIds p (.elem t a c ch) =
      (if p (.elem t a c ch) = true then [getAttr (.elem t a c ch) idAttr] else []) ++
        filtIdsF p ch := by
  simp only [filtIds, filtIdsF, elemsN_elem, List.filter_cons]
  split <;> simp_all

theorem filtIdsF_fcons (p : Node → Bool) (n : Node) (t : Forest) :
    filtIdsF p (.fcons n t) = filtIds p n ++ filtIdsF p t := by
  simp [filtIdsF, filtIds, elemsF, List.filter_append]

mutual
/-- `create_clean_soup` replaces only the first `body`; this mirrors the
preservation property through that replacement. -/
theorem replBodyN_filter (p : Node → Bool) (hattr : AttrPred p) (n : Node)
    (hp : ∀ e ∈ elemsN n, p e = true → keepB e = true) :
    ∀ n', replaceBodyN n = some n' → filtIds p n' = filtIds p n := by
  intro n' hn
  cases n with
  | text s => simp [replaceBodyN] at hn
  | elem t a c ch =>
      by_cases hb : t = "body"
      · simp only [replaceBodyN, if_pos hb] at hn
        injection hn with hn
        subst hn
        unfold processTop
        cases hpe : processElement (.elem t a c ch) with
        | some r => simpa using (processN_filter p hattr _ hp).1 r hpe
        | none => rfl
      · simp only [replaceBodyN, if_neg hb] at hn
        cases hf : replaceBodyF ch with
        | some ch' =>
            rw [hf] at hn
            injection hn with hn
            subst hn
            rw [filtIds_elem, filtIds_elem, hattr t a c ch' ch,
                getAttr_elem_ext t a c ch' ch,
                replBodyF_filter p hattr ch
                  (fun e he hpe => hp e (by simp [elemsN_elem, he]) hpe) ch' hf]
        | none => rw [hf] at hn; exact absurd hn (by simp)

theorem replBodyF_filter (p : Node → Bool) (hattr : AttrPred p) (f : Forest)
    (hp : ∀ e ∈ elemsF f, p e = true → keepB e = true) :
    ∀ f', replaceBodyF f = some f' → filtIdsF p f' = filtIdsF p f := by
  intro f' hf
  cases f with
  | fnil => simp [replaceBodyF] at hf
  | fcons n t =>
      have hpn : ∀ e ∈ elemsN n, p e = true → keepB e = true :=
        fun e he hpe => hp e (by simp [elemsF, he]) hpe
      have hpt : ∀ e ∈ elemsF t, p e = true → keepB e = true :=
        fun e he hpe => hp e (by simp [elemsF, he]) hpe
      cases hn : replaceBodyN n with
      | some n' =>
          simp only [replaceBodyF, hn] at hf
          injection hf with hf
          subst hf
          rw [filtIdsF_fcons, filtIdsF_fcons, replBodyN_filter p hattr n hpn n' hn]
      | none =>
          simp only [replaceBodyF, hn] at hf
          cases ht : replaceBodyF t with
          | some t' =>
              rw [ht] at hf
              injection hf with hf
              subst hf
              rw [filtIdsF_fcons, filtIdsF_fcons, replBodyF_filter p hattr t hpt t' ht]
          | none => rw [ht] at hf; exact absurd hf (by simp)
end

theorem wellLabeled_keep (e : Node) (hw : wellLabeledElem e = true)
    (l : String) (hl : l ∈ contentLabels) (h : hasAttr e l = true) :
    keepB e = true := by
  have := (List.all_eq_true.mp hw) l hl
  simp only [Bool.or_eq_true, Bool.not_eq_true'] at this
  rcases this with h0 | h1
  · rw [h] at h0; cases h0
  · exact List.any_eq_true.mpr ⟨l, hl, h1⟩

theorem labeledIds_eq_filtIdsF (l : String) (n : Node) :
    labeledIds l n = filtIdsF (fun e => hasAttr e l) n.childForest := by
  cases n <;> rfl

theorem createClean_labels (s : Node) (hw : wellLabeledB s = true)
    (l : String) (hl : l ∈ contentLabels) :
    labeledIds l (createCleanSoup s) = labeledIds l s := by
  cases s with
  | text str => rfl
  | elem t a c ch =>
      simp only [createCleanSoup]
      cases hf : replaceBodyF ch with
      | none => rfl
      | some ch' =>
          rw [labeledIds_eq_filtIdsF, labeledIds_eq_filtIdsF]
          show filtIdsF _ ch' = filtIdsF _ ch
          refine replBodyF_filter (fun e => hasAttr e l)
            (fun _ _ _ _ _ => rfl) ch (fun e he hpe => ?_) ch' hf
          have hwe : wellLabeledElem e = true := by
            have := List.all_eq_true.mp hw
            exact this e (by simp [elemsN_elem, he])
          exact wellLabeled_keep e hwe l hl hpe

theorem listSetEq_self (a : List (Option String)) : listSetEq a a = true := by
  simp only [listSetEq, Bool.and_self, List.all_eq_true]
  intro x hx
  exact List.elem_eq_true_of_mem hx

/-- C1: for every labeled document (label attributes carry non-empty
values, as the extractor writes them), pruning preserves, for every label
kind, the set of identifiers bearing that kind; i.e. `verify_clean_soup`
run after `create_clean_soup` returns `True`. -/
theorem prune_preserves_labels (s : Node) (hw : wellLabeledB s = true) :
    verifyCleanSoup s (createCleanSoup s) = true := by
  unfold verifyCleanSoup
  rw [List.all_eq_true]
  intro l hl
  rw [createClean_labels s hw l hl]
  exact listSetEq_self _

/-- A small labeled document: `html > body > (div > p[content], nav)`. -/
def ex1 : Node :=
  el "[document]" []
    [el "html" [("ali-zx9v8k2m4p", "q7y5n3j6h_0")]
      [el "head" [("ali-zx9v8k2m4p", "q7y5n3j6h_1")]
        [el "meta" [("ali-zx9v8k2m4p", "q7y5n3j6h_2"),
                    ("ali-zx9v8k2m4p-date-type", "qw7x_article_date_p9m2")] []],
       el "body" [("ali-zx9v8k2m4p", "q7y5n3j6h_3")]
        [el "div" [("ali-zx9v8k2m4p", "q7y5n3j6h_4")]
          [el "p" [("ali-zx9v8k2m4p", "q7y5n3j6h_5"),
                   ("ali-zx9v8k2m4p-content-type", "qw7x_article_content_p9m2")]
            [txt "Body text."],
           el "span" [("ali-zx9v8k2m4p", "q7y5n3j6h_6")] [txt "junk"]],
         el "aside" [("ali-zx9v8k2m4p", "q7y5n3j6h_7")] [txt "ad"]]]]

theorem prune_preserves_labels_witness :
    wellLabeledB ex1 = true ∧ verifyCleanSoup ex1 (createCleanSoup ex1) = true :=
  ⟨by decide, prune_preserves_labels ex1 (by decide)⟩

/- ### C2: is the pruned copy a true reduction? -/

/-- The literal reading of the claim: no element of the clean copy lacks
both a label and a labeled descendant unless its tag is structural. -/
def claimC2soup (s : Node) : Bool :=
  (descendantElems (createCleanSoup s)).all
    (fun e => keepB e || hasLabeledDescB e || structuralB e)

/-- A labeled document whose labeled `p` contains a plain `span`: rule (1)
keeps the `p` subtree verbatim, so the clean copy retains the `span`,
which has no label, no labeled descendant, and is not structural. -/
def ex2 : Node :=
  el "[document]" []
    [el "html" [("ali-zx9v8k2m4p", "q7y5n3j6h_0")]
      [el "body" [("ali-zx9v8k2m4p", "q7y5n3j6h_1")]
        [el "p" [("ali-zx9v8k2m4p", "q7y5n3j6h_2"),
                 ("ali-zx9v8k2m4p-content-type", "qw7x_article_content_p9m2")]
          [el "span" [("ali-zx9v8k2m4p", "q7y5n3j6h_3")] [txt "inside"]]]]]

/-- C2 counterexample: on `ex2` the clean copy contains an element (the
`span`) lacking a label and a labeled descendant whose tag is not
structural, refuting the claim as stated. -/
theorem prune_reduction_counterexample :
    wellLabeledB ex2 = true ∧ claimC2soup ex2 = false := by
  constructor <;> decide

mutual
/-- The amended reduction property on a pruned tree: every element either
carries a label, or is structural without labeled descendants (rule 2 keeps
such subtrees verbatim), or has a labeled descendant and, recursively,
so do its children — i.e. outside verbatim-kept subtrees every element is
labeled, has a labeled descendant, or is structural. -/
def cleanReducedN : Node → Bool
  | .text _ => true
  | .elem t a c ch =>
      if keepB (.elem t a c ch) then true
      else if structuralB (.elem t a c ch) && !hasLabeledDescB (.elem t a c ch) then true
      else hasLabeledDescB (.elem t a c ch) && cleanReducedF ch

def cleanReducedF : Forest → Bool
  | .fnil => true
  | .fcons n t => cleanReducedN n && cleanReducedF t
end

theorem any_eq_filter {α : Type} (p : α → Bool) (l : List α) :
    l.any p = !(l.filter p).isEmpty := by
  induction l with
  | nil => rfl
  | cons h t ih => by_cases hp : p h = true <;> simp [List.filter_cons, hp, ih]

theorem isEmpty_of_map_eq {α β : Type} (g : α → β) (l1 l2 : List α)
    (h : l1.map g = l2.map g) : l1.isEmpty = l2.isEmpty := by
  cases l1 <;> cases l2 <;> simp_all

theorem hasLabeledDescB_processForest (t : String) (a : List (String × String))
    (c : Option (List String)) (ch : Forest) :
    hasLabeledDescB (.elem t a c (processForest ch)) = hasLabeledDescB (.elem t a c ch) := by
  have h := processF_filter keepB (fun _ _ _ _ _ => rfl) ch (fun _ _ h => h)
  simp only [hasLabeledDescB, descendantElems_elem]
  rw [any_eq_filter, any_eq_filter,
    isEmpty_of_map_eq (fun e => getAttr e idAttr) _ _ h]

mutual
theorem processN_reduced (n : Node) :
    ∀ r, processElement n = some r → cleanReducedN r = true := by
  intro r hr
  cases n with
  | text s =>
      simp [processElement] at hr
      subst hr
      rfl
  | elem t a c ch =>
      by_cases hk : keepB (.elem t a c ch) = true
      · simp only [processElement, if_pos hk] at hr
        injection hr with hr
        subst hr
        simp [cleanReducedN, hk]
      · by_cases hd : hasLabeledDescB (.elem t a c ch) = true
        · simp [processElement, hk, hd] at hr
          subst hr
          have hk' : keepB (.elem t a c (processForest ch)) = false := by
            rw [keepB_elem_ext t a c (processForest ch) ch]
            simpa using hk
          have hd' : hasLabeledDescB (.elem t a c (processForest ch)) = true := by
            rw [hasLabeledDescB_processForest]; exact hd
          simp [cleanReducedN, hk', hd', processF_reduced ch]
        · simp [processElement, hk, hd] at hr
          rcases hr with ⟨hs, hr⟩
          subst hr
          simp [cleanReducedN, hk, hd, hs]

theorem processF_reduced (f : Forest) : cleanReducedF (processForest f) = true := by
  cases f with
  | fnil => rfl
  | fcons n t =>
      cases hn : processElement n with
      | some n' =>
          simp only [processForest, hn, cleanReducedF]
          rw [processN_reduced n n' hn, processF_reduced t]
          rfl
      | none =>
          simp only [processForest, hn]
          exact processF_reduced t
end

/-- Every `body` element survives `_process_element` (it is structural). -/
theorem processElement_body (n : Node) (hb : n.tagName = "body") :
    ∃ r, processElement n = some r := by
  cases n with
  | text s => simp [Node.tagName] at hb
  | elem t a c ch =>
      simp only [Node.tagName] at hb
      subst hb
      by_cases hk : keepB (.elem "body" a c ch) = true
      · exact ⟨.elem "body" a c ch, by simp [processElement, hk]⟩
      · by_cases hd : hasLabeledDescB (.elem "body" a c ch) = true
        · exact ⟨.elem "body" a c (processForest ch), by simp [processElement, hk, hd]⟩
        · refine ⟨.elem "body" a c ch, ?_⟩
          have hs : structuralB (.elem "body" a c ch) = true := by
            simp only [structuralB, Node.tagName]
            decide
          simp [processElement, hk, hd, hs]

/-- C2 amended: pruning from a `body` yields a tree in which every element
outside a verbatim-kept subtree (a labeled element's subtree, or that of a
structural element without labeled descendants) carries a label, has a
labeled descendant, or is structural. -/
theorem prune_reduction_amended (n : Node) (hb : n.tagName = "body") :
    cleanReducedN (processTop n) = true := by
  obtain ⟨r, hr⟩ := processElement_body n hb
  unfold processTop
  rw [hr]
  exact processN_reduced n r hr

theorem prune_reduction_amended_witness :
    (el "body" [("x", "1")] [el "div" [] [txt "t"]]).tagName = "body" ∧
      cleanReducedN (processTop (el "body" [("x", "1")] [el "div" [] [txt "t"]])) = true :=
  ⟨by decide, prune_reduction_amended _ (by decide)⟩

/- ## `ArticleExtractor.extract_article` error boundary (C9) -/

/-- The structured result `{'error': str(e), 'url': url}`. -/
structure ErrorDict where
  error : String
  url : String
deriving DecidableEq

/-- The body of the `try:` block of `extract_article`: the protection
bypass probe, then the per-article pipeline (navigation, parsing, text
wrapping, labeling, marking — any of which may fault).  The pipeline result
is the labeled soup; `Except.error` models a raised exception carrying
`str(e)`. -/
def extractArticleBody (cloudflareOK : Bool) (pipeline : Except String Node) :
    Except String Node :=
  if cloudflareOK then pipeline
  else Except.error "Could not bypass protection"

/-- `ArticleExtractor.extract_article`: the whole body runs inside
`try: ... except Exception as e: return {'error': str(e), 'url': url}`.
The codomain's own `Except` layer models an exception escaping past the
method boundary; the method never produces it. -/
def extractArticle (url : String) (cloudflareOK : Bool)
    (pipeline : Except String Node) : Except String (Node ⊕ ErrorDict) :=
  match extractArticleBody cloudflareOK pipeline with
  | Except.ok soup => Except.ok (Sum.inl soup)
  | Except.error e => Except.ok (Sum.inr ⟨e, url⟩)

/-- C9: `extract_article` never propagates an exception past its boundary:
on any fault it returns a structured dict with the error message and the
offending URL, and on success it returns the labeled soup. -/
theorem extract_article_no_raise (url : String) (cf : Bool)
    (pipe : Except String Node) :
    (∃ v, extractArticle url cf pipe = Except.ok v) ∧
    (cf = true → ∀ s, pipe = Except.ok s →
        extractArticle url cf pipe = Except.ok (Sum.inl s)) ∧
    (∀ e, extractArticleBody cf pipe = Except.error e →
        extractArticle url cf pipe = Except.ok (Sum.inr ⟨e, url⟩)) := by
  refine ⟨?_, ?_, ?_⟩
  · unfold extractArticle
    cases extractArticleBody cf pipe with
    | ok s => exact ⟨Sum.inl s, rfl⟩
    | error e => exact ⟨Sum.inr ⟨e, url⟩, rfl⟩
  · intro hcf s hs
    subst hcf hs
    rfl
  · intro e he
    unfold extractArticle
    rw [he]

theorem extract_article_no_raise_witness :
    (true : Bool) = true ∧ (Except.ok (txt "soup") : Except String Node) = Except.ok (txt "soup") ∧
      extractArticle "http://u" true (Except.ok (txt "soup")) = Except.ok (Sum.inl (txt "soup")) :=
  ⟨rfl, rfl, (extract_article_no_raise "http://u" true (Except.ok (txt "soup"))).2.1 rfl _ rfl⟩

/- ## Python `max(iterable, key=...)` -/

/-- Python `max` with a key function: the first element attaining the
maximal key (Python keeps the current best on ties). -/
def pyMaxBy {α : Type} (key : α → Nat) : List α → Option α
  | [] => none
  | x :: xs => some (xs.foldl (fun best y => if key y > key best then y else best) x)

theorem foldl_max_mem {α : Type} (key : α → Nat) (x : α) (xs : List α) :
    xs.foldl (fun best y => if key y > key best then y else best) x ∈ x :: xs := by
  induction xs generalizing x with
  | nil => simp
  | cons y ys ih =>
      simp only [List.foldl_cons]
      by_cases h : key y > key x
      · simp only [if_pos h]
        rcases List.mem_cons.mp (ih y) with h2 | h2 <;> simp [h2]
      · simp only [if_neg h]
        rcases List.mem_cons.mp (ih x) with h2 | h2 <;> simp [h2]

theorem foldl_max_ge {α : Type} (key : α → Nat) (x : α) (xs : List α) :
    ∀ z ∈ x :: xs, key z ≤ key (xs.foldl (fun best y => if key y > key best then y else best) x) := by
  induction xs generalizing x with
  | nil =>
      intro z hz
      rw [List.mem_singleton.mp hz]
      simp
  | cons y ys ih =>
      intro z hz
      simp only [List.foldl_cons]
      have hbx : key x ≤ key (if key y > key x then y else x) := by
        by_cases h : key y > key x <;> simp [h] <;> omega
      have hby : key y ≤ key (if key y > key x then y else x) := by
        by_cases h : key y > key x <;> simp [h] <;> omega
      have hhead : key (if key y > key x then y else x) ≤
          key (ys.foldl (fun best y => if key y > key best then y else best)
            (if key y > key x then y else x)) :=
        ih _ _ (by simp)
      rcases List.mem_cons.mp hz with h2 | h2
      · rw [h2]; exact le_trans hbx hhead
      · rcases List.mem_cons.mp h2 with h3 | h3
        · rw [h3]; exact le_trans hby hhead
        · exact ih _ z (by simp [h3])

/-- The Python `max` returns the *first* element attaining the maximum:
everything strictly before the result has a strictly smaller key. -/
theorem foldl_max_first {α : Type} (key : α → Nat) (x : α) (xs : List α) :
    ∃ l1 l2, x :: xs = l1 ++ (xs.foldl (fun best y => if key y > key best then y else best) x) :: l2 ∧
      ∀ z ∈ l1, key z < key (xs.foldl (fun best y => if key y > key best then y else best) x) := by
  induction xs generalizing x with
  | nil => exact ⟨[], [], rfl, by simp⟩
  | cons y ys ih =>
      simp only [List.foldl_cons]
      by_cases h : key y > key x
      · simp only [if_pos h]
        obtain ⟨l1, l2, he, hlt⟩ := ih y
        refine ⟨x :: l1, l2, by rw [List.cons_append, ← he], ?_⟩
        intro z hz
        rcases List.mem_cons.mp hz with h2 | h2
        · subst h2
          exact lt_of_lt_of_le h (foldl_max_ge key y ys y (by simp))
        · exact hlt z h2
      · simp only [if_neg h]
        obtain ⟨l1, l2, he, hlt⟩ := ih x
        cases l1 with
        | nil =>
            simp only [List.nil_append, List.cons.injEq] at he
            refine ⟨[], y :: ys, ?_, by simp⟩
            simp only [List.nil_append, List.cons.injEq]
            exact ⟨he.1, trivial⟩
        | cons a l1t =>
            simp only [List.cons_append, List.cons.injEq] at he
            refine ⟨x :: y :: l1t, l2, ?_, ?_⟩
            · simp only [List.cons_append, List.cons.injEq]
              exact ⟨trivial, trivial, he.2⟩
            · intro z hz
              have hx : key x < key (ys.foldl (fun best y => if key y > key best then y else best) x) := by
                have h5 := hlt a (by simp)
                rw [← he.1] at h5
                exact h5
              rcases List.mem_cons.mp hz with h2 | h2
              · rw [h2]; exact hx
              · rcases List.mem_cons.mp h2 with h3 | h3
                · rw [h3]; omega
                · exact hlt z (by simp [h3])

/- ## `ArticleExtractor._mark_title` (C7) -/

/-- `soup.find(tag, attr=value)`: first element descendant with the tag
name and the given attribute value. -/
def findTagAttr (soup : Node) (tag key v : String) : Option Node :=
  (descendantElems soup).find? (fun e => e.tagName = tag && getAttr e key = some v)

/-- `soup.find(tag)`. -/
def findTag (soup : Node) (tag : String) : Option Node :=
  (descendantElems soup).find? (fun e => e.tagName = tag)

/-- BS4 `tag.string`: the single string of a tag, descending through a
unique child chain. -/
def nodeString : Node → Option String
  | .text s => some s
  | .elem _ _ _ .fnil => none
  | .elem _ _ _ (.fcons c .fnil) => nodeString c
  | .elem _ _ _ (.fcons _ (.fcons _ _)) => none

/-- A title candidate: `{'text': ..., 'ali_id': ...}` (the element itself
is re-found by id at marking time). -/
structure TitleCand where
  text : Option String
  aliId : Option String
deriving DecidableEq

/-- The candidate list built by `_mark_title`, in source order: OpenGraph
meta, schema.org headline, `<article>`-scoped `h1`, and — only when no
candidate was found at all — the page's first `h1`.  `jh` models
`json.loads` followed by the `dict`/`'headline'` access (`none` is any
failure of that `try` block). -/
def titleCandidates (jh : String → Option String) (soup : Node) : List TitleCand :=
  let ogc : List TitleCand :=
    match findTagAttr soup "meta" "property" "og:title" with
    | some m => [⟨getAttr m "content", getAttr m idAttr⟩]
    | none => []
  let schemac : List TitleCand :=
    match findTagAttr soup "script" "type" "application/ld+json" with
    | some sc =>
        match nodeString sc with
        | some s =>
            match jh s with
            | some headline => [⟨some headline, getAttr sc idAttr⟩]
            | none => []
        | none => []
    | none => []
  let artc : List TitleCand :=
    match findTag soup "article" with
    | some art =>
        match findTag art "h1" with
        | some h1 => [⟨some (getTextStrip h1), getAttr h1 idAttr⟩]
        | none => []
    | none => []
  let base := ogc ++ schemac ++ artc
  if base.isEmpty then
    match findTag soup "h1" with
    | some h1 => [⟨some (getTextStrip h1), getAttr h1 idAttr⟩]
    | none => []
  else base

/-- `valid_titles`: candidates whose text is truthy and under 200 chars. -/
def validTitles (jh : String → Option String) (soup : Node) : List (String × Option String) :=
  (titleCandidates jh soup).filterMap (fun c =>
    match c.text with
    | some t => if t ≠ "" && t.length < 200 then some (t, c.aliId) else none
    | none => none)

/-- `_mark_title`'s chosen best candidate (text and ali-id); the element
bearing that id then receives the title label. -/
def markTitle (jh : String → Option String) (soup : Node) : Option (String × Option String) :=
  pyMaxBy (fun c => c.1.length) (validTitles jh soup)

/-- The element that receives the title mark: `soup.find(attrs=
{'ali-zx9v8k2m4p': best['ali_id']})` (for labeled soups the id is present
and unique, so this is the chosen candidate's element). -/
def markTitleElem (jh : String → Option String) (soup : Node) : Option Node :=
  match markTitle jh soup with
  | some (_, some i) => (descendantElems soup).find? (fun e => getAttr e idAttr = some i)
  | _ => none

/-- Scenario soup for C7: a 50-character OpenGraph title and an
80-character `<article><h1>` title. -/
def ex7title50 : String := ⟨List.replicate 50 'a'⟩

def ex7title80 : String := ⟨List.replicate 80 'b'⟩

def ex7h1 : Node := el "h1" [("ali-zx9v8k2m4p", "q7y5n3j6h_5")] [txt ex7title80]

def ex7 : Node :=
  el "[document]" []
    [el "html" [("ali-zx9v8k2m4p", "q7y5n3j6h_0")]
      [el "head" [("ali-zx9v8k2m4p", "q7y5n3j6h_1")]
        [el "meta" [("ali-zx9v8k2m4p", "q7y5n3j6h_2"),
                    ("property", "og:title"), ("content", ex7title50)] []],
       el "body" [("ali-zx9v8k2m4p", "q7y5n3j6h_3")]
        [el "article" [("ali-zx9v8k2m4p", "q7y5n3j6h_4")] [ex7h1]]]]

/-- C7: among the title candidates whose text is non-empty and shorter
than 200 characters, `_mark_title` selects a candidate of maximal text
length (the first such, by Python `max`), marks whenever a valid candidate
exists, and on the 50-char-OpenGraph / 80-char-article-h1 scenario the
`h1` element is the one labeled as title. -/
theorem mark_title_longest :
    (∀ (jh : String → Option String) (soup : Node) (t : String) (i : Option String),
        markTitle jh soup = some (t, i) →
          (t, i) ∈ validTitles jh soup ∧
          ∀ c ∈ validTitles jh soup, c.1.length ≤ t.length) ∧
    (∀ (jh : String → Option String) (soup : Node),
        validTitles jh soup ≠ [] → ∃ c, markTitle jh soup = some c) ∧
    markTitleElem (fun _ => none) ex7 = some ex7h1 := by
  refine ⟨?_, ?_, ?_⟩
  · intro jh soup t i h
    unfold markTitle at h
    cases hv : validTitles jh soup with
    | nil => rw [hv] at h; exact absurd h (by simp [pyMaxBy])
    | cons x xs =>
        rw [hv] at h
        simp only [pyMaxBy, Option.some.injEq] at h
        constructor
        · rw [← h]
          exact foldl_max_mem (fun c => c.1.length) x xs
        · intro c hc
          have := foldl_max_ge (fun c => c.1.length) x xs c hc
          rw [h] at this
          exact this
  · intro jh soup hne
    unfold markTitle
    cases hv : validTitles jh soup with
    | nil => exact absurd hv hne
    | cons x xs => exact ⟨_, rfl⟩
  · decide

theorem mark_title_longest_witness :
    markTitle (fun _ => none) ex7 = some (ex7title80, some "q7y5n3j6h_5") ∧
    ((ex7title80, (some "q7y5n3j6h_5" : Option String)) ∈ validTitles (fun _ => none) ex7 ∧
      ∀ c ∈ validTitles (fun _ => none) ex7, c.1.length ≤ ex7title80.length) :=
  ⟨by decide,
    mark_title_longest.1 (fun _ => none) ex7 ex7title80 (some "q7y5n3j6h_5") (by decide)⟩

/- ## `ArticleExtractor._is_boilerplate` (C6) -/

/-- `basic_patterns` of `_is_boilerplate`: all are literal substrings under
`re.I` except `terms of (use|service)`, which is the two alternatives. -/
def basicBoilerplate (text : String) : Bool :=
  let t := pyLower text
  strContains t "copyright" || strContains t "all rights reserved" ||
  strContains t "terms of use" || strContains t "terms of service" ||
  strContains t "privacy policy" || strContains t "contact us" ||
  strContains t "share this" || strContains t "follow us" ||
  strContains t "subscribe to"

/-- The `[\s-]` class of the section-header regexes. -/
def sepWS (c : Char) : Bool := pyWS c || c = '-'

def lowerAZ (c : Char) : Bool := 'a' ≤ c && c ≤ 'z'

/-- The `[a-z\s]` class (inputs are pre-lowered, so `re.I` adds nothing). -/
def azWS (c : Char) : Bool := lowerAZ c || pyWS c

/-- Match a literal at the head, returning the remaining suffix. -/
def matchLit (lit : List Char) (l : List Char) : Option (List Char) :=
  if lit.isPrefixOf l then some (l.drop lit.length) else none

/-- All suffixes reachable by consuming at least one `p`-character
(`p+` in a regex whose continuation may need backtracking). -/
def consumeSome (p : Char → Bool) : List Char → List (List Char)
  | [] => []
  | c :: r => if p c then r :: consumeSome p r else []

/-- Regex-step combinators over the set of possible suffixes. -/
def stepLit (lit : List Char) (ls : List (List Char)) : List (List Char) :=
  ls.filterMap (matchLit lit)

def stepPlus (p : Char → Bool) (ls : List (List Char)) : List (List Char) :=
  ls.flatMap (consumeSome p)

def stepStar (p : Char → Bool) (ls : List (List Char)) : List (List Char) :=
  ls.flatMap (fun l => l :: consumeSome p l)

def stepOptChar (c : Char) (ls : List (List Char)) : List (List Char) :=
  ls.flatMap (fun l =>
    match l with
    | c' :: r => if c' = c then [l, r] else [l]
    | [] => [l])

/-- `forward[\s-]*looking[\s-]*statements?` -/
def fwdCore (l : List Char) : List (List Char) :=
  stepOptChar 's' (stepLit "statement".data
    (stepStar sepWS (stepLit "looking".data
      (stepStar sepWS (stepLit "forward".data [l])))))

/-- `safe\s+harbor\s+statements?` -/
def safeCore (l : List Char) : List (List Char) :=
  stepOptChar 's' (stepLit "statement".data
    (stepPlus pyWS (stepLit "harbor".data
      (stepPlus pyWS (stepLit "safe".data [l])))))

/-- `about\s+[a-z\s]+` -/
def aboutCore (l : List Char) : List (List Char) :=
  stepPlus azWS (stepPlus pyWS (stepLit "about".data [l]))

/-- `[a-z\s]+[\']?s\s+safe\s+harbor\s+statement` -/
def possCore (l : List Char) : List (List Char) :=
  stepLit "statement".data
    (stepPlus pyWS (stepLit "harbor".data
      (stepPlus pyWS (stepLit "safe".data
        (stepPlus pyWS (stepLit "s".data
          (stepOptChar '\'' (stepPlus azWS [l]))))))))

/-- An anchored-`$` acceptable suffix: end of string, or a single final
newline (`$` matches just before a trailing `'\n'`). -/
def endOK (l : List Char) : Bool := l = [] || l = ['\n']

/-- `strict_section_headers`: anchored matches on `text.strip().lower()`
(patterns 3 and 4 begin `^\s*`, absorbed into the `[a-z\s]+` of pattern 4;
pattern 3 needs it explicitly). -/
def strictSection (text : String) : Bool :=
  let l := (pyLower (pyStrip text)).data
  (fwdCore l).any endOK || (safeCore l).any endOK ||
  ((stepPlus azWS (stepPlus pyWS (stepLit "about".data (stepStar pyWS [l])))).any endOK) ||
  ((possCore l).any endOK)

/-- Suffix acceptable for a trailing `.*$`: no newline, except possibly a
single final one. -/
def dotStarEndOK (l : List Char) : Bool :=
  l.all (fun c => c ≠ '\n') ||
  (match l.reverse with
   | '\n' :: r => r.all (fun c => c ≠ '\n')
   | _ => false)

/-- `^.*CORE.*$`: a start position for CORE whose preceding prefix has no
newline, with an acceptable suffix after it. -/
def lenientMatch (core : List Char → List (List Char)) : List Char → Bool
  | [] => (core []).any dotStarEndOK
  | c :: r => (core (c :: r)).any dotStarEndOK || (c ≠ '\n' && lenientMatch core r)

/-- `lenient_section_headers` on `text.strip().lower()`. -/
def lenientSection (text : String) : Bool :=
  let l := (pyLower (pyStrip text)).data
  lenientMatch fwdCore l || lenientMatch safeCore l ||
  lenientMatch aboutCore l || lenientMatch possCore l

instance {ε α : Type} [DecidableEq ε] [DecidableEq α] : DecidableEq (Except ε α) := fun a b =>
  match a, b with
  | .ok x, .ok y =>
      if h : x = y then .isTrue (by rw [h]) else .isFalse (fun hh => h (Except.ok.inj hh))
  | .error x, .error y =>
      if h : x = y then .isTrue (by rw [h]) else .isFalse (fun hh => h (Except.error.inj hh))
  | .ok _, .error _ => .isFalse (fun hh => Except.noConfusion hh)
  | .error _, .ok _ => .isFalse (fun hh => Except.noConfusion hh)

/-- Python truthiness of `parent.get('class', '')`. -/
def truthyClass (n : Node) : Bool :=
  match n.classAttr with
  | some cls => !cls.isEmpty
  | none => false

/-- The bold condition of the lenient branch, exactly as evaluated:
`element.parent.name in ['b','strong']` or inline bold style on the parent
or (`element.parent.get('class','')` truthy and a token of
`element.get('class')` — the *element's* classes — contains `'bold'`);
iterating `element.get('class')` when the attribute is absent raises
`TypeError`, modelled by `Except.error`. -/
def boldCond (element parent : Node) : Except Unit Bool :=
  if parent.tagName = "b" || parent.tagName = "strong" then Except.ok true
  else if strContains (pyLower ((getAttr parent "style").getD "")) "font-weight: bold" then
    Except.ok true
  else if truthyClass parent then
    match element.classAttr with
    | none => Except.error ()
    | some cls => Except.ok (cls.any (fun c => strContains (pyLower c) "bold"))
  else Except.ok false

/-- `ArticleExtractor._is_boilerplate(text, element)`: returns
`(is_boilerplate, is_section_header)`; `parent` is `element.parent`. -/
def isBoilerplate (text : String) (element parent : Node) : Except Unit (Bool × Bool) :=
  if basicBoilerplate text then Except.ok (true, false)
  else
    let strict := strictSection text
    if lenientSection text then
      match boldCond element parent with
      | Except.error e => Except.error e
      | Except.ok b => Except.ok (false, strict || b)
    else Except.ok (false, strict)

/-- The claim's bold test, all three conditions on the enclosing (parent)
element, per the spec's wording. -/
def claimedParentBold (parent : Node) : Bool :=
  parent.tagName = "b" || parent.tagName = "strong" ||
  strContains (pyLower ((getAttr parent "style").getD "")) "font-weight: bold" ||
  (match parent.classAttr with
   | some cls => cls.any (fun c => strContains (pyLower c) "bold")
   | none => false)

/-- C6 counterexample data: the parent carries class token `bold`, the
element's own class does not; text is a lenient (but not strict, not
basic) section-header match. -/
def ex6elem : Node := elC "p" [] ["x"] [txt "1 forward looking statements 1"]

def ex6parent : Node := elC "div" [] ["bold"] [ex6elem]

/-- C6 counterexample: the text is visually bold per the claim (the
enclosing element carries a `bold` class token) and is a lenient
section-header match, yet `_is_boilerplate` reports no section boundary —
the code tests the *element's* class tokens, not the parent's, refuting
the claimed equivalence. -/
theorem boilerplate_bold_counterexample :
    directText ex6elem = "1 forward looking statements 1" ∧
    basicBoilerplate (directText ex6elem) = false ∧
    strictSection (directText ex6elem) = false ∧
    lenientSection (directText ex6elem) = true ∧
    claimedParentBold ex6parent = true ∧
    isBoilerplate (directText ex6elem) ex6elem ex6parent = Except.ok (false, false) := by
  refine ⟨by decide, by decide, by decide, by decide, by decide, by decide⟩

/-- The bold condition the code actually implements (no-crash cases). -/
def codeBoldCond (element parent : Node) : Bool :=
  parent.tagName = "b" || parent.tagName = "strong" ||
  strContains (pyLower ((getAttr parent "style").getD "")) "font-weight: bold" ||
  (truthyClass parent &&
    ((element.classAttr.getD []).any (fun c => strContains (pyLower c) "bold")))

/-- The crash condition: first two bold tests fail, the parent's class is
truthy, and the element has no class attribute. -/
def boldCrash (element parent : Node) : Bool :=
  !(parent.tagName = "b" || parent.tagName = "strong") &&
  !(strContains (pyLower ((getAttr parent "style").getD "")) "font-weight: bold") &&
  truthyClass parent && element.classAttr = none

/-- C6 amended: for lenient (non-basic, non-strict) section-header text,
`_is_boilerplate` reports a section boundary iff the parent is a bold tag,
or carries an inline bold style, or the parent's class attribute is truthy
while the *element's own* class tokens include one containing `bold`; and
when the parent has a truthy class but the element has no class attribute
(and neither of the first two bold tests holds), the check raises
`TypeError` instead of returning. -/
theorem boilerplate_bold_amended :
    (∀ (text : String) (element parent : Node),
        basicBoilerplate text = false → strictSection text = false →
        lenientSection text = true → boldCrash element parent = false →
        isBoilerplate text element parent = Except.ok (false, codeBoldCond element parent)) ∧
    (∀ (text : String) (element parent : Node),
        basicBoilerplate text = false → lenientSection text = true →
        boldCrash element parent = true →
        isBoilerplate text element parent = Except.error ()) := by
  constructor
  · intro text element parent hb hs hl hc
    simp only [isBoilerplate, hb, hl, hs, Bool.false_eq_true, if_false, if_true]
    unfold boldCond codeBoldCond
    by_cases h1 : (parent.tagName = "b" || parent.tagName = "strong") = true
    · simp [h1]
    · rw [Bool.or_eq_true] at h1
      push_neg at h1
      by_cases h2 : strContains (pyLower ((getAttr parent "style").getD "")) "font-weight: bold"
        = true
      · simp [h1.1, h1.2, h2]
      · by_cases h3 : truthyClass parent = true
        · cases hcl : element.classAttr with
          | none =>
              exfalso
              simp [boldCrash, h1.1, h1.2, h2, h3, hcl, decide_eq_true_eq] at hc
          | some cls =>
              simp [h1.1, h1.2, h2, h3, hcl]
        · simp [h1.1, h1.2, h2, h3]
  · intro text element parent hb hl hc
    simp only [boldCrash, Bool.and_eq_true, Bool.not_eq_true', decide_eq_true_eq] at hc
    obtain ⟨⟨⟨h1, h2⟩, h3⟩, h4⟩ := hc
    rw [Bool.or_eq_false_iff] at h1
    simp [isBoilerplate, hb, hl, boldCond, h1.1, h1.2, h2, h3, h4]

theorem boilerplate_bold_amended_witness :
    basicBoilerplate "1 forward looking statements 1" = false ∧
    strictSection "1 forward looking statements 1" = false ∧
    lenientSection "1 forward looking statements 1" = true ∧
    boldCrash (elC "p" [] ["boldx"] []) (elC "div" [] ["y"] []) = false ∧
    isBoilerplate "1 forward looking statements 1" (elC "p" [] ["boldx"] [])
        (elC "div" [] ["y"] []) =
      Except.ok (false, codeBoldCond (elC "p" [] ["boldx"] []) (elC "div" [] ["y"] [])) :=
  ⟨by decide, by decide, by decide, by decide,
    boilerplate_bold_amended.1 _ _ _ (by decide) (by decide) (by decide) (by decide)⟩

/- ## `ArticleExtractor._mark_content` (C5) -/

/-- The traversal state of `_mark_content`: the `skip_remaining` flag, the
`processed_elements` id set, and the log of label writes (element id,
label value) — each `content` mark is accompanied in the source by a
`content-tag` attribute write on the same element. -/
structure MCState where
  skip : Bool
  processed : List (Option String)
  marks : List (Option String × String)
deriving DecidableEq

def contentVal : String := "qw7x_article_content_p9m2"

def tableVal : String := "qw7x_article_table_p9m2"

def thVal : String := "qw7x_table_header_p9m2"

def tdVal : String := "qw7x_table_cell_p9m2"

/-- `_mark_table`: the `th`/`td` label writes (headers first, then cells,
non-empty text only). -/
def markTableEvents (table : Node) : List (Option String × String) :=
  ((findAllTag table "th").filterMap (fun th =>
      if getTextStrip th ≠ "" then some (getAttr th idAttr, thVal) else none)) ++
  ((findAllTag table "td").filterMap (fun td =>
      if getTextStrip td ≠ "" then some (getAttr td idAttr, tdVal) else none))

/-- `_mark_table`'s return value `has_content`. -/
def markTableHas (table : Node) : Bool := !(markTableEvents table).isEmpty

/-- The state change of the guarded table branch (`if not skip_remaining:
if self._mark_table(child): ...`); caller guards on the skip flag. -/
def tableStep (table : Node) (s : MCState) : MCState :=
  if markTableHas table then
    { s with marks := s.marks ++ markTableEvents table ++ [(getAttr table idAttr, tableVal)],
             processed := getAttr table idAttr :: s.processed }
  else { s with marks := s.marks ++ markTableEvents table }

mutual
/-- `process_element_recursively(element)` with `parent = element.parent`;
`Except.error` propagates the `TypeError` that `_is_boilerplate` can
raise.  Only called on tags (the walk and the child loop filter out
NavigableStrings), so the text case is inert. -/
def processRecN (parent e : Node) (s : MCState) : Except Unit MCState :=
  match e with
  | .text _ => Except.ok s
  | .elem t a cl ch =>
      if s.skip then Except.ok s
      else
        let eid := getAttr (.elem t a cl ch) idAttr
        if s.processed.contains eid then Except.ok s
        else
          let s1 : MCState := { s with processed := eid :: s.processed }
          let dt := directText (.elem t a cl ch)
          if dt ≠ "" then
            match isBoilerplate dt (.elem t a cl ch) parent with
            | Except.error u => Except.error u
            | Except.ok (bp, sh) =>
                if sh then Except.ok { s1 with skip := true }
                else
                  let s2 := if !bp then
                      { s1 with marks := s1.marks ++ [(eid, contentVal)] }
                    else s1
                  processChildren (.elem t a cl ch) ch s2
          else processChildren (.elem t a cl ch) ch s1

/-- The `for child in element.children` loop: tables are diverted to
`_mark_table` under the skip guard; other tags recurse. -/
def processChildren (parent : Node) (f : Forest) (s : MCState) : Except Unit MCState :=
  match f with
  | .fnil => Except.ok s
  | .fcons c rest =>
      match c with
      | .text _ => processChildren parent rest s
      | .elem t a cl ch =>
          if t = "table" then
            let s' := if !s.skip then tableStep (.elem t a cl ch) s else s
            processChildren parent rest s'
          else
            match processRecN parent (.elem t a cl ch) s with
            | Except.error u => Except.error u
            | Except.ok s' => processChildren parent rest s'
end

mutual
/-- Elements with their ancestor chains (nearest first), document order;
`anc` is the chain above the forest. -/
def elemsAncN (anc : List Node) : Node → List (Node × List Node)
  | .text _ => []
  | .elem t a c ch =>
      (.elem t a c ch, anc) :: elemsAncF (.elem t a c ch :: anc) ch

def elemsAncF (anc : List Node) : Forest → List (Node × List Node)
  | .fnil => []
  | .fcons n rest => elemsAncN anc n ++ elemsAncF anc rest
end

def targetTags : List String := ["p", "h2", "h3", "h4", "ul", "ol", "table", "blockquote"]

/-- The main `for element in content.find_all(target_tags)` walk; each item
carries the element's ancestors for the in-table check and for
`element.parent`. -/
def markContentLoop (items : List (Node × List Node)) (s : MCState) : Except Unit MCState :=
  match items with
  | [] => Except.ok s
  | (e, anc) :: rest =>
      if s.processed.contains (getAttr e idAttr) then markContentLoop rest s
      else if e.tagName = "table" || anc.any (fun p => p.tagName = "table") then
        let s' := if e.tagName = "table" && !s.skip then tableStep e s else s
        markContentLoop rest s'
      else
        match processRecN (anc.headD (txt "")) e s with
        | Except.error u => Except.error u
        | Except.ok s' => markContentLoop rest s'

def unwantedTags : List String := ["nav", "footer", "aside", "script", "style", "noscript"]

/-- A class token match for `re.compile(r'(article|post|entry).*content', re.I)`. -/
def contentPat1 : List Char → Bool
  | [] => false
  | c :: r =>
      (match matchLit "article".data (c :: r) with
       | some s => subList s "content".data
       | none => false) ||
      (match matchLit "post".data (c :: r) with
       | some s => subList s "content".data
       | none => false) ||
      (match matchLit "entry".data (c :: r) with
       | some s => subList s "content".data
       | none => false) ||
      contentPat1 r

def contentPatterns : List (List Char → Bool) :=
  [ contentPat1,
    fun l => subList l "main-content".data,
    fun l => subList l "story-content".data,
    fun l => subList l "news-content".data ]

/-- BS4 `class_=re.compile(p)`: the regex is tried against each class
token (and the joined string for multi-valued classes). -/
def classMatches (pat : List Char → Bool) (n : Node) : Bool :=
  match n.classAttr with
  | none => false
  | some cls =>
      cls.any (fun tok => pat (pyLower tok).data) ||
      pat (pyLower (String.intercalate " " cls)).data

/-- The content-container search of `_mark_content`: `<article>`, else the
first content-class `div` with more than 200 characters of text (pattern-
major order), else the largest `div`/`section` outside unwanted tags. -/
def findContent (soup : Node) : Option (Node × List Node) :=
  let withAnc := elemsAncF [soup] soup.childForest
  match withAnc.find? (fun p => p.1.tagName = "article") with
  | some a => some a
  | none =>
      match (contentPatterns.flatMap (fun pat =>
          withAnc.filter (fun p =>
            p.1.tagName = "div" && classMatches pat p.1 &&
              (getTextStrip p.1).length > 200))).head? with
      | some d => some d
      | none =>
          pyMaxBy (fun p => (getTextStrip p.1).length)
            (withAnc.filter (fun p =>
              (p.1.tagName = "div" || p.1.tagName = "section") &&
              !(p.2.any (fun q => unwantedTags.contains q.tagName))))

/-- `ArticleExtractor._mark_content` (label-write log form). -/
def markContent (soup : Node) : Except Unit MCState :=
  match findContent soup with
  | none => Except.ok ⟨false, [], []⟩
  | some (content, canc) =>
      let walk := (elemsAncF (content :: canc) content.childForest).filter
        (fun p => targetTags.contains p.1.tagName)
      markContentLoop walk ⟨false, [], []⟩

theorem processRecN_skip (parent e : Node) (s : MCState) (h : s.skip = true) :
    processRecN parent e s = Except.ok s := by
  cases e with
  | text str => rfl
  | elem t a cl ch => simp [processRecN, h]

theorem processChildren_skip (parent : Node) (f : Forest) (s : MCState) (h : s.skip = true) :
    processChildren parent f s = Except.ok s := by
  cases f with
  | fnil => rfl
  | fcons c rest =>
      cases c with
      | text str =>
          show processChildren parent rest s = Except.ok s
          exact processChildren_skip parent rest s h
      | elem t a cl ch =>
          simp only [processChildren]
          by_cases ht : t = "table"
          · rw [if_pos ht]
            simp only [h, Bool.not_true, Bool.false_eq_true, if_false]
            exact processChildren_skip parent rest s h
          · rw [if_neg ht, processRecN_skip parent (.elem t a cl ch) s h]
            exact processChildren_skip parent rest s h

theorem markContentLoop_skip (items : List (Node × List Node)) (s : MCState)
    (h : s.skip = true) : markContentLoop items s = Except.ok s := by
  induction items with
  | nil => rfl
  | cons it rest ih =>
      obtain ⟨e, anc⟩ := it
      unfold markContentLoop
      by_cases hp : s.processed.contains (getAttr e idAttr) = true
      · rw [if_pos hp]; exact ih
      · rw [if_neg hp]
        by_cases htab : (e.tagName = "table" || anc.any (fun p => p.tagName = "table")) = true
        · rw [if_pos htab]
          simp only [h, Bool.and_false, Bool.not_true, Bool.false_eq_true, if_false]
          exact ih
        · rw [if_neg htab, processRecN_skip (anc.headD (txt "")) e s h]
          exact ih

/-- C5: once a section boundary has been classified (the skip flag is
set), the rest of the walk is inert: the recursive processor, the child
loop (tables included), and the outer walk all leave the state — in
particular its label-write log — unchanged; and classifying an element's
direct text as a section boundary yields exactly the skip-flagged state
with no new label. -/
theorem content_truncation :
    (∀ (parent e : Node) (s : MCState), s.skip = true →
        processRecN parent e s = Except.ok s) ∧
    (∀ (parent : Node) (f : Forest) (s : MCState), s.skip = true →
        processChildren parent f s = Except.ok s) ∧
    (∀ (items : List (Node × List Node)) (s : MCState), s.skip = true →
        markContentLoop items s = Except.ok s) ∧
    (∀ (parent e : Node) (s : MCState) (bp : Bool), s.skip = false →
        s.processed.contains (getAttr e idAttr) = false →
        directText e ≠ "" →
        isBoilerplate (directText e) e parent = Except.ok (bp, true) →
        processRecN parent e s =
          Except.ok ⟨true, getAttr e idAttr :: s.processed, s.marks⟩) := by
  refine ⟨fun p e s h => processRecN_skip p e s h,
    fun p f s h => processChildren_skip p f s h,
    fun items s h => markContentLoop_skip items s h, ?_⟩
  intro parent e s bp hskip hproc hdt hbp
  cases e with
  | text str => exact absurd (show directText (.text str) = "" from rfl) hdt
  | elem t a cl ch =>
      simp [processRecN, hskip, hproc, hdt, hbp]
      intro hmem
      exact absurd hmem (by simpa using hproc)

theorem content_truncation_witness :
    (⟨true, [], [(some "q7y5n3j6h_9", contentVal)]⟩ : MCState).skip = true ∧
      markContentLoop [(el "p" [] [txt "Real content after the boundary."], [])]
          ⟨true, [], [(some "q7y5n3j6h_9", contentVal)]⟩ =
        Except.ok ⟨true, [], [(some "q7y5n3j6h_9", contentVal)]⟩ :=
  ⟨rfl, content_truncation.2.2.1 [(el "p" [] [txt "Real content after the boundary."], [])]
    ⟨true, [], [(some "q7y5n3j6h_9", contentVal)]⟩ rfl⟩

/- ## `ArticleExtractor._mark_date` (C4) -/

/-- A calendar date (the parsed dates of `_mark_date` carry midnight
times, so comparison with `datetime.now()` reduces to date order). -/
structure PyDate where
  y : Nat
  m : Nat
  d : Nat
deriving DecidableEq

/-- Strict `datetime` order on midnight dates. -/
def dateLtB (a b : PyDate) : Bool :=
  a.y < b.y || (a.y = b.y && (a.m < b.m || (a.m = b.m && a.d < b.d)))

def daysInMonth (y m : Nat) : Nat :=
  if m = 2 then (if y % 4 = 0 && (y % 100 ≠ 0 || y % 400 = 0) then 29 else 28)
  else if m = 4 || m = 6 || m = 9 || m = 11 then 30
  else 31

/-- `dateutil`'s year/month/day resolution: a value over 12 in month
position is reassigned to the day (and vice versa); invalid dates raise. -/
def resolveYMD (y a b : Nat) : Option PyDate :=
  if 1 ≤ a && a ≤ 12 && 1 ≤ b && b ≤ daysInMonth y a then some ⟨y, a, b⟩
  else if 1 ≤ b && b ≤ 12 && 1 ≤ a && a ≤ daysInMonth y b then some ⟨y, b, a⟩
  else none

/-- `dateutil`'s two-digit-year window (run date in the mid-2020s). -/
def windowYear (y : Nat) : Nat :=
  if y < 100 then (if y ≤ 75 then 2000 + y else 1900 + y) else y

/-- Exactly `n` digits from the head. -/
def takeDigitsExact : Nat → List Char → Option (List Char × List Char)
  | 0, l => some ([], l)
  | _ + 1, [] => none
  | n + 1, c :: r =>
      if isDigit c then (takeDigitsExact n r).map (fun p => (c :: p.1, p.2)) else none

/-- The greedy-first split points of `\d{lo,hi}` at the head. -/
def digitPrefixes (lo hi : Nat) (l : List Char) : List (List Char × List Char) :=
  let run := (l.takeWhile isDigit).length
  ((List.range (hi + 1)).reverse).filterMap (fun k =>
    if lo ≤ k && k ≤ run then some (l.take k, l.drop k) else none)

/-- Month names recognised by `dateutil` (lower-cased comparison). -/
def monthNames : List (String × Nat) :=
  [("jan", 1), ("january", 1), ("feb", 2), ("february", 2), ("mar", 3), ("march", 3),
   ("apr", 4), ("april", 4), ("may", 5), ("jun", 6), ("june", 6), ("jul", 7),
   ("july", 7), ("aug", 8), ("august", 8), ("sep", 9), ("sept", 9), ("september", 9),
   ("oct", 10), ("october", 10), ("nov", 11), ("november", 11), ("dec", 12),
   ("december", 12)]

/-- Modelled from `dateutil.parser.parse`, restricted to the string shapes
this program feeds it: `YYYY-MM-DD` (optionally with a `T...` time tail),
`D/M/Y` numerics, and `Monthname D[,] YYYY`; anything else fails. -/
def parseDate (s : String) : Option PyDate :=
  let l := s.data
  let iso : Option PyDate :=
    match takeDigitsExact 4 l with
    | some (y4, '-' :: r2) =>
        match takeDigitsExact 2 r2 with
        | some (m2, '-' :: r4) =>
            match takeDigitsExact 2 r4 with
            | some (d2, r5) =>
                if r5 = [] || r5.head? = some 'T' then
                  resolveYMD (decodeDec y4) (decodeDec m2) (decodeDec d2)
                else none
            | _ => none
        | _ => none
    | _ => none
  match iso with
  | some dt => some dt
  | none =>
      let slash : Option PyDate :=
        match splitChar '/' l with
        | [a, b, y] =>
            if !a.isEmpty && a.all isDigit && a.length ≤ 2 &&
               !b.isEmpty && b.all isDigit && b.length ≤ 2 &&
               y.all isDigit && 2 ≤ y.length && y.length ≤ 4 then
              resolveYMD (windowYear (decodeDec y)) (decodeDec a) (decodeDec b)
            else none
        | _ => none
      match slash with
      | some dt => some dt
      | none =>
          let w := l.takeWhile isAsciiAlpha
          let r1 := l.dropWhile isAsciiAlpha
          match monthNames.find? (fun p => p.1 = pyLower ⟨w⟩) with
          | none => none
          | some (_, m) =>
              match r1 with
              | ' ' :: r2 =>
                  let ds := r2.takeWhile isDigit
                  let r3 := r2.dropWhile isDigit
                  if ds.isEmpty || ds.length > 2 then none
                  else
                    let r4 := match r3 with
                              | ',' :: r => r
                              | r => r
                    match r4 with
                    | ' ' :: r5 =>
                        if r5.all isDigit && r5.length = 4 then
                          let d := decodeDec ds
                          let y := decodeDec r5
                          if 1 ≤ d && d ≤ daysInMonth y m then some ⟨y, m, d⟩ else none
                        else none
                    | _ => none
              | _ => none

/-- `re.search`: leftmost match of a position matcher. -/
def reSearch (matchAt : List Char → Option (List Char)) : List Char → Option (List Char)
  | [] => matchAt []
  | c :: r =>
      match matchAt (c :: r) with
      | some m => some m
      | none => reSearch matchAt r

/-- `\d{4}-\d{2}-\d{2}` at a position. -/
def matchISOAt (l : List Char) : Option (List Char) :=
  match takeDigitsExact 4 l with
  | some (y4, '-' :: r2) =>
      match takeDigitsExact 2 r2 with
      | some (m2, '-' :: r4) =>
          match takeDigitsExact 2 r4 with
          | some (d2, _) => some (y4 ++ '-' :: m2 ++ '-' :: d2)
          | _ => none
      | _ => none
  | _ => none

/-- `\d{1,2}/\d{1,2}/\d{2,4}` at a position (greedy, backtracking). -/
def matchSlashAt (l : List Char) : Option (List Char) :=
  (digitPrefixes 1 2 l).findSome? (fun p1 =>
    match p1.2 with
    | '/' :: r2 =>
        (digitPrefixes 1 2 r2).findSome? (fun p2 =>
          match p2.2 with
          | '/' :: r4 =>
              (digitPrefixes 2 4 r4).findSome? (fun p3 =>
                some (p1.1 ++ '/' :: p2.1 ++ '/' :: p3.1))
          | _ => none)
    | _ => none)

/-- `(Jan|Feb|...|Dec)[a-z]* \d{1,2},? \d{4}` at a position. -/
def matchMonthAt (l : List Char) : Option (List Char) :=
  ((["Jan", "Feb", "Mar", "Apr", "May", "Jun", "Jul", "Aug", "Sep", "Oct",
     "Nov", "Dec"] : List String).map String.data).findSome? (fun ab =>
    match matchLit ab l with
    | none => none
    | some r1 =>
        let letters := r1.takeWhile lowerAZ
        match r1.dropWhile lowerAZ with
        | ' ' :: r3 =>
            (digitPrefixes 1 2 r3).findSome? (fun pd =>
              let branches : List (List Char × List Char) :=
                match pd.2 with
                | ',' :: r5 => [([','], r5), ([], pd.2)]
                | _ => [([], pd.2)]
              branches.findSome? (fun br =>
                match br.2 with
                | ' ' :: r6 =>
                    match takeDigitsExact 4 r6 with
                    | some (y4, _) =>
                        some (ab ++ letters ++ ' ' :: pd.1 ++ br.1 ++ ' ' :: y4)
                    | none => none
                | _ => none))
        | _ => none)

/-- `has_news_date_class` of `_mark_date`. -/
def hasNewsDateClass (n : Node) : Bool :=
  match n.classAttr with
  | none => false
  | some cls =>
      if cls.isEmpty then false
      else
        let ct := pyLower (String.intercalate " " cls)
        (strContains ct "news" || strContains ct "new") && strContains ct "date"

def pubIndicators : List String := ["press", "release", "published", "posted"]

/-- A text-node date candidate: the date pattern that produced it, the
position of its wrapper among the `ali-tx9v8k2m4p` nodes in document
order, the parsed date, and the score. -/
structure DateCand where
  pat : Nat
  idx : Nat
  date : PyDate
  score : Nat
deriving DecidableEq

/-- The candidate list of `_mark_date`'s scan: the outer loop runs over
the three patterns, the inner loop over the wrapped text nodes in document
order — so the enumeration is pattern-major. -/
def textCandidates (soup : Node) (now : PyDate) : List DateCand :=
  let wrappers := (elemsAncF [soup] soup.childForest).filter
    (fun p => p.1.tagName = "ali-tx9v8k2m4p")
  let pats : List (Nat × (List Char → Option (List Char))) :=
    [(0, reSearch matchISOAt), (1, reSearch matchSlashAt), (2, reSearch matchMonthAt)]
  pats.flatMap (fun pt =>
    wrappers.enum.filterMap (fun iw =>
      match pt.2 (getTextRaw iw.2.1).data with
      | none => none
      | some m =>
          match parseDate ⟨m⟩ with
          | none => none
          | some dt =>
              if dateLtB now dt then none
              else
                let s1 : Nat := if iw.2.2.any hasNewsDateClass then 5 else 0
                let surrounding := pyLower (getTextRaw (iw.2.2.headD (txt "")))
                let s2 : Nat :=
                  if pubIndicators.any (fun k => strContains surrounding k) then 5 else 0
                some ⟨pt.1, iw.1, dt, s1 + s2⟩))

/-- The meta-tag phase: first `meta` whose `property` is a published-time
property and whose `content` parses (unparseable or absent content is
skipped by the `try/except: continue`). -/
def metaPhase (soup : Node) : Option (Node × PyDate) :=
  (findAllTag soup "meta").findSome? (fun m =>
    if getAttr m "property" = some "article:published_time" ||
       getAttr m "property" = some "og:published_time" then
      match getAttr m "content" with
      | some c => (parseDate c).map (fun dt => (m, dt))
      | none => none
    else none)

/-- The schema.org phase; `jd` models `json.loads` + the
`dict`/`'datePublished'` access (`none` is any failure). -/
def schemaPhase (jd : String → Option String) (soup : Node) : Option (Node × PyDate) :=
  match findTagAttr soup "script" "type" "application/ld+json" with
  | some sc =>
      match nodeString sc with
      | some s =>
          match jd s with
          | some ds => (parseDate ds).map (fun dt => (sc, dt))
          | none => none
      | none => none
  | none => none

inductive DateMark where
  | meta (m : Node) (dt : PyDate)
  | schema (sc : Node) (dt : PyDate)
  | textNode (c : DateCand)
deriving DecidableEq

/-- `ArticleExtractor._mark_date`: meta phase, then schema phase, then the
highest-scoring text candidate via Python `max` (first maximum in the
pattern-major enumeration). -/
def markDate (jd : String → Option String) (soup : Node) (now : PyDate) : Option DateMark :=
  match metaPhase soup with
  | some md => some (.meta md.1 md.2)
  | none =>
      match schemaPhase jd soup with
      | some sd => some (.schema sd.1 sd.2)
      | none =>
          match pyMaxBy (fun c => c.score) (textCandidates soup now) with
          | some c => some (.textNode c)
          | none => none

def now4 : PyDate := ⟨2026, 10, 12⟩

/-- C4 counterexample soup: an earlier text node with a month-name date
and a later one with an ISO date, both scoring 0. -/
def ex4 : Node :=
  el "[document]" []
    [el "html" [("ali-zx9v8k2m4p", "q7y5n3j6h_0")]
      [el "body" [("ali-zx9v8k2m4p", "q7y5n3j6h_1")]
        [el "div" [("ali-zx9v8k2m4p", "q7y5n3j6h_2")]
          [el "ali-tx9v8k2m4p" [("ali-tx9v8k2m4p-seq", "qw7x_1_p9m2"),
                                ("ali-zx9v8k2m4p", "q7y5n3j6h_3")]
            [txt "March 5, 2020"]],
         el "div" [("ali-zx9v8k2m4p", "q7y5n3j6h_4")]
          [el "ali-tx9v8k2m4p" [("ali-tx9v8k2m4p-seq", "qw7x_2_p9m2"),
                                ("ali-zx9v8k2m4p", "q7y5n3j6h_5")]
            [txt "2020-03-05"]]]]]

/-- C4 counterexample: with no metadata date, two text-node candidates tie
at the highest score (0); the document-order-first is the month-name date
at wrapper index 0, but `_mark_date` labels the ISO date at wrapper index
1 — the scan is pattern-major, so an ISO match beats an earlier
month-name match on ties. -/
theorem mark_date_tie_counterexample :
    metaPhase ex4 = none ∧
    schemaPhase (fun _ => none) ex4 = none ∧
    (textCandidates ex4 now4).map (fun c => (c.pat, c.idx, c.score)) =
      [(0, 1, 0), (2, 0, 0)] ∧
    markDate (fun _ => none) ex4 now4 =
      some (DateMark.textNode ⟨0, 1, ⟨2020, 3, 5⟩, 0⟩) := by
  refine ⟨by decide, rfl, by decide, by decide⟩

/-- C4 amended: when no metadata date exists, `_mark_date` labels the
first candidate attaining the maximum score in the pattern-major
enumeration (patterns ISO, slash, month-name in order; document order
within a pattern).  When several candidates tie for the highest score the
labeled one is therefore the tied candidate earliest in that enumeration —
document-order-first only among candidates of the same (earliest
. matching) pattern. -/
theorem mark_date_first_max (jd : String → Option String) (soup : Node) (now : PyDate)
    (c : DateCand) (hm : metaPhase soup = none)
    (hc : markDate jd soup now = some (DateMark.textNode c)) :
    c ∈ textCandidates soup now ∧
    (∀ c' ∈ textCandidates soup now, c'.score ≤ c.score) ∧
    ∃ l1 l2, textCandidates soup now = l1 ++ c :: l2 ∧
      ∀ c' ∈ l1, c'.score < c.score := by
  unfold markDate at hc
  rw [hm] at hc
  cases hs : schemaPhase jd soup with
  | some sd => rw [hs] at hc; exact absurd hc (by simp)
  | none =>
      rw [hs] at hc
      cases hv : textCandidates soup now with
      | nil => rw [hv] at hc; exact absurd hc (by simp [pyMaxBy])
      | cons x xs =>
          rw [hv] at hc
          simp only [pyMaxBy, Option.some.injEq, DateMark.textNode.injEq] at hc
          refine ⟨?_, ?_, ?_⟩
          · rw [← hc]
            exact foldl_max_mem (fun c => c.score) x xs
          · intro c' hc'
            have := foldl_max_ge (fun c => c.score) x xs c' hc'
            rw [hc] at this
            exact this
          · obtain ⟨l1, l2, he, hlt⟩ := foldl_max_first (fun c => c.score) x xs
            exact ⟨l1, l2, by rw [← hc]; exact he, fun c' h' => hc ▸ hlt c' h'⟩

theorem mark_date_first_max_witness :
    markDate (fun _ => none) ex4 now4 =
        some (DateMark.textNode ⟨0, 1, ⟨2020, 3, 5⟩, 0⟩) ∧
      ((⟨0, 1, ⟨2020, 3, 5⟩, 0⟩ : DateCand) ∈ textCandidates ex4 now4 ∧
        (∀ c' ∈ textCandidates ex4 now4, c'.score ≤ (0 : Nat)) ∧
        ∃ l1 l2, textCandidates ex4 now4 = l1 ++ (⟨0, 1, ⟨2020, 3, 5⟩, 0⟩ : DateCand) :: l2 ∧
          ∀ c' ∈ l1, c'.score < (0 : Nat)) :=
  ⟨by decide,
    mark_date_first_max (fun _ => none) ex4 now4 ⟨0, 1, ⟨2020, 3, 5⟩, 0⟩
      (by decide) (by decide)⟩

/- ## Node addressing: `_wrap_text_nodes` and `_label_elements` (C8) -/

def wrapTag : String := "ali-tx9v8k2m4p"

def seqAttr : String := "ali-tx9v8k2m4p-seq"

/-- The f-string `f'qw7x_{idx}_p9m2'`. -/
def mkSeq (i : Nat) : String := ⟨"qw7x_".data ++ natDec i ++ "_p9m2".data⟩

/-- The f-string `f'q7y5n3j6h_{idx}'`. -/
def mkId (i : Nat) : String := ⟨"q7y5n3j6h_".data ++ natDec i⟩

theorem mkId_injective : Function.Injective mkId := by
  intro a b h
  have h2 : "q7y5n3j6h_".data ++ natDec a = "q7y5n3j6h_".data ++ natDec b := by
    have := congrArg String.data h
    simpa [mkId] using this
  exact natDec_injective (List.append_cancel_left h2)

mutual
/-- `_wrap_text_nodes` with the running 1-based sequence counter: each
non-empty text node is replaced by `<ali-tx9v8k2m4p ali-tx9v8k2m4p-seq=
'qw7x_{idx}_p9m2'>` wrapping it. -/
def wrapN : Nat → Node → Node × Nat
  | i, .text s =>
      if pyStrip s ≠ "" then
        (.elem wrapTag [(seqAttr, mkSeq i)] none (.fcons (.text s) .fnil), i + 1)
      else (.text s, i)
  | i, .elem t a c ch =>
      let r := wrapF i ch
      (.elem t a c r.1, r.2)

def wrapF : Nat → Forest → Forest × Nat
  | i, .fnil => (.fnil, i)
  | i, .fcons n rest =>
      let rn := wrapN i n
      let rr := wrapF rn.2 rest
      (.fcons rn.1 rr.1, rr.2)
end

/-- `_wrap_text_nodes(soup)`: wraps every non-empty text descendant, in
document order, numbering from 1. -/
def wrapTextNodes (soup : Node) : Node :=
  match soup with
  | .text s => .text s
  | .elem t a c ch => .elem t a c (wrapF 1 ch).1

mutual
/-- `_label_elements` with the running 0-based id counter: every element
descendant receives `ali-zx9v8k2m4p = 'q7y5n3j6h_{idx}'` in document
order. -/
def labelN : Nat → Node → Node × Nat
  | i, .text s => (.text s, i)
  | i, .elem t a c ch =>
      let r := labelF (i + 1) ch
      (.elem t (setAttr a idAttr (mkId i)) c r.1, r.2)

def labelF : Nat → Forest → Forest × Nat
  | i, .fnil => (.fnil, i)
  | i, .fcons n rest =>
      let rn := labelN i n
      let rr := labelF rn.2 rest
      (.fcons rn.1 rr.1, rr.2)
end

def labelElements (soup : Node) : Node :=
  match soup with
  | .text s => .text s
  | .elem t a c ch => .elem t a c (labelF 0 ch).1

/-- A fresh snapshot: no synthetic wrapper tags and no reserved attributes
anywhere. -/
def freshElem (e : Node) : Bool :=
  e.tagName ≠ wrapTag && !hasAttr e idAttr && !hasAttr e seqAttr

def freshB (soup : Node) : Bool := (elemsN soup).all freshElem

mutual
/-- The number of non-empty text nodes of a subtree. -/
def tcN : Node → Nat
  | .text s => if pyStrip s ≠ "" then 1 else 0
  | .elem _ _ _ ch => tcF ch

def tcF : Forest → Nat
  | .fnil => 0
  | .fcons n rest => tcN n + tcF rest
end

/-- The projection of an element that the wrapper/sequence checks read:
tag name, number of `seq` attribute bindings, the `seq` value, and the
shape of its direct children (`some s` for a text child). -/
structure WrapView where
  tag : String
  seqCount : Nat
  seqVal : Option String
  kids : List (Option String)
deriving DecidableEq

def wrapView (e : Node) : WrapView :=
  ⟨e.tagName, (e.attrList.filter (fun p => p.1 = seqAttr)).length, getAttr e seqAttr,
    e.childForest.toList.map (fun c =>
      match c with
      | .text s => some s
      | .elem _ _ _ _ => none)⟩

/-- Wrapper well-formedness: a `wrapTag` element has exactly one sequence
attribute and exactly one child, a non-empty text node. -/
def shapePred (v : WrapView) : Bool :=
  v.tag ≠ wrapTag ||
    (v.seqCount = 1 &&
      match v.kids with
      | [some s] => pyStrip s ≠ ""
      | _ => false)

/-- Non-wrapper elements have no non-empty direct text child (every piece
of visible text is inside a wrapper). -/
def textsPred (v : WrapView) : Bool :=
  v.tag = wrapTag ||
    v.kids.all (fun k =>
      match k with
      | some s => pyStrip s = ""
      | none => true)

def shapeL (es : List Node) : Bool := (es.map wrapView).all shapePred

def textsL (es : List Node) : Bool := (es.map wrapView).all textsPred

/-- The sequence values of the wrappers of a list, in order. -/
def seqL (es : List Node) : List (Option String) :=
  (es.map wrapView).filterMap (fun v => if v.tag = wrapTag then some v.seqVal else none)

/-- No element carries the reserved id attribute. -/
def zeroIdL (es : List Node) : Bool := es.all (fun e => !hasAttr e idAttr)

/-- A top-level forest entry is either a tag or an empty-stripped text. -/
def topOK : Node → Bool
  | .text s => pyStrip s = ""
  | .elem _ _ _ _ => true

/-- The constructor shape of a direct child (`some s` for a text node). -/
def kidShape : Node → Option String
  | .text s => some s
  | .elem _ _ _ _ => none

def getA (a : List (String × String)) (k : String) : Option String :=
  (a.find? (fun p => p.1 = k)).map Prod.snd

theorem getAttr_elem_getA (t : String) (a : List (String × String))
    (c : Option (List String)) (ch : Forest) (k : String) :
    getAttr (.elem t a c ch) k = getA a k := rfl

theorem getA_setAttr_self (a : List (String × String)) (k v : String) :
    getA (setAttr a k v) k = some v := by
  induction a with
  | nil => simp [setAttr, getA, List.find?]
  | cons p t ih =>
      obtain ⟨k2, w⟩ := p
      by_cases h : k2 = k
      · subst h
        simp [setAttr, getA, List.find?]
      · simp only [setAttr, if_neg h]
        simpa [getA, List.find?, h] using ih

theorem getA_setAttr_ne (a : List (String × String)) (k v k' : String) (h : k' ≠ k) :
    getA (setAttr a k v) k' = getA a k' := by
  induction a with
  | nil =>
      have hkk : ¬(k = k') := fun hh => h hh.symm
      simp [setAttr, getA, List.find?, hkk]
  | cons p t ih =>
      obtain ⟨k2, w⟩ := p
      by_cases h2 : k2 = k
      · subst h2
        have hkk : ¬(k2 = k') := fun hh => h hh.symm
        simp [setAttr, getA, List.find?, hkk]
      · simp only [setAttr, if_neg h2]
        by_cases h3 : k2 = k'
        · simp [getA, List.find?, h3]
        · simpa [getA, List.find?, h3] using ih

theorem setAttr_filter_ne (a : List (String × String)) (k v k' : String) (h : k' ≠ k) :
    (setAttr a k v).filter (fun p => p.1 = k') = a.filter (fun p => p.1 = k') := by
  induction a with
  | nil =>
      have hkk : ¬(k = k') := fun hh => h hh.symm
      simp [setAttr, List.filter, hkk]
  | cons p t ih =>
      obtain ⟨k2, w⟩ := p
      by_cases h2 : k2 = k
      · subst h2
        have hkk : ¬(k2 = k') := fun hh => h hh.symm
        simp [setAttr, List.filter_cons, hkk]
      · simp only [setAttr, if_neg h2]
        by_cases h3 : k2 = k'
        · simp [List.filter_cons, h3, ih]
        · simp [List.filter_cons, h3, ih]

theorem setAttr_filter_fresh (a : List (String × String)) (k v : String)
    (h : a.all (fun p => ¬p.1 = k) = true) :
    ((setAttr a k v).filter (fun p => p.1 = k)).length = 1 := by
  induction a with
  | nil => simp [setAttr, List.filter]
  | cons p t ih =>
      obtain ⟨k2, w⟩ := p
      simp only [List.all_cons, Bool.and_eq_true, decide_eq_true_eq] at h
      simp only [setAttr, if_neg h.1]
      have hk : ¬(k2 = k) := h.1
      simp only [List.filter_cons, hk, decide_eq_true_eq, if_neg hk]
      exact ih h.2

theorem hasAttr_false_all (t : String) (a : List (String × String))
    (c : Option (List String)) (ch : Forest) (k : String)
    (h : hasAttr (.elem t a c ch) k = false) :
    a.all (fun p => ¬p.1 = k) = true := by
  simp only [hasAttr, Node.attrList, List.any_eq_false, decide_eq_true_eq] at h
  simp only [List.all_eq_true, decide_eq_true_eq]
  exact h

/-- A self-contained ascending range. -/
def natRange : Nat → Nat → List Nat
  | _, 0 => []
  | i, k + 1 => i :: natRange (i + 1) k

theorem natRange_append (i a b : Nat) :
    natRange i a ++ natRange (i + a) b = natRange i (a + b) := by
  induction a generalizing i with
  | zero => simp [natRange]
  | succ a ih =>
      simp only [natRange, List.cons_append, Nat.succ_add]
      rw [show i + (a + 1) = (i + 1) + a by omega, ih (i + 1)]

theorem mem_natRange (x i k : Nat) : x ∈ natRange i k ↔ i ≤ x ∧ x < i + k := by
  induction k generalizing i with
  | zero => simp [natRange]
  | succ k ih =>
      simp only [natRange, List.mem_cons, ih (i + 1)]
      omega

theorem natRange_nodup (i k : Nat) : (natRange i k).Nodup := by
  induction k generalizing i with
  | zero => exact List.nodup_nil
  | succ k ih =>
      refine List.nodup_cons.mpr ⟨?_, ih (i + 1)⟩
      rw [mem_natRange]
      omega

def seqRangeR (i k : Nat) : List (Option String) :=
  (natRange i k).map (fun j => some (mkSeq j))

theorem seqRangeR_append (i a b : Nat) :
    seqRangeR i a ++ seqRangeR (i + a) b = seqRangeR i (a + b) := by
  simp only [seqRangeR, ← List.map_append, natRange_append]

theorem shapeL_append (a b : List Node) :
    shapeL (a ++ b) = (shapeL a && shapeL b) := by
  simp [shapeL, List.all_append]

theorem textsL_append (a b : List Node) :
    textsL (a ++ b) = (textsL a && textsL b) := by
  simp [textsL, List.all_append]

theorem zeroIdL_append (a b : List Node) :
    zeroIdL (a ++ b) = (zeroIdL a && zeroIdL b) := by
  simp [zeroIdL, List.all_append]

theorem seqL_append (a b : List Node) : seqL (a ++ b) = seqL a ++ seqL b := by
  simp [seqL, List.filterMap_append]

mutual
/-- `_wrap_text_nodes` invariant: on a fresh subtree it advances the
counter by the number of non-empty texts, creates well-formed wrappers
whose sequence values are exactly `mkSeq i, mkSeq (i+1), …` in document
order, leaves every non-empty text inside a wrapper, and introduces no id
attributes. -/
theorem wrapN_inv (n : Node) (i : Nat) (hf : (elemsN n).all freshElem = true) :
    (wrapN i n).2 = i + tcN n ∧
    zeroIdL (elemsN (wrapN i n).1) = true ∧
    shapeL (elemsN (wrapN i n).1) = true ∧
    textsL (elemsN (wrapN i n).1) = true ∧
    seqL (elemsN (wrapN i n).1) = seqRangeR i (tcN n) ∧
    topOK (wrapN i n).1 = true := by
  cases n with
  | text s =>
      by_cases hs : pyStrip s ≠ ""
      · refine ⟨by simp [wrapN, hs, tcN], ?_, ?_, ?_, ?_, by simp [wrapN, hs, topOK]⟩
        · simp [wrapN, hs, elemsN, elemsF, zeroIdL, hasAttr, Node.attrList, idAttr, seqAttr]
        · simp [wrapN, hs, elemsN, elemsF, shapeL, wrapView, shapePred, Node.tagName,
            Node.attrList, Node.childForest, Forest.toList, getAttr, getA, List.find?,
            List.filter, hs]
        · simp [wrapN, hs, elemsN, elemsF, textsL, wrapView, textsPred, Node.tagName]
        · simp [wrapN, hs, elemsN, elemsF, seqL, wrapView, Node.tagName, Node.attrList,
            getAttr, getA, List.find?, seqRangeR, natRange, tcN, hs, Node.childForest,
            Forest.toList]
      · refine ⟨by simp [wrapN, hs, tcN, if_neg hs], ?_, ?_, ?_, ?_, ?_⟩ <;>
          simp_all [wrapN, tcN, elemsN, zeroIdL, shapeL, textsL, seqL, seqRangeR,
            natRange, topOK]
  | elem t a c ch =>
      rw [elemsN_elem, List.all_cons, Bool.and_eq_true] at hf
      obtain ⟨hfh, hft⟩ := hf
      obtain ⟨hc1, hc2, hc3, hc4, hc5, hc6⟩ := wrapF_inv ch i hft
      have hres : wrapN i (.elem t a c ch) = (.elem t a c (wrapF i ch).1, (wrapF i ch).2) := by
        simp [wrapN]
      have hel : elemsN (wrapN i (.elem t a c ch)).1 =
          .elem t a c (wrapF i ch).1 :: elemsF (wrapF i ch).1 := by
        rw [hres, elemsN_elem]
      have htag : Node.tagName (.elem t a c (wrapF i ch).1) ≠ wrapTag := by
        simp only [freshElem, Bool.and_eq_true, decide_eq_true_eq] at hfh
        simpa [Node.tagName] using hfh.1.1
      refine ⟨by rw [hres]; simpa [tcN] using hc1, ?_, ?_, ?_, ?_, by rw [hres]; rfl⟩
      · rw [hel]
        simp only [zeroIdL, List.all_cons, Bool.and_eq_true]
        refine ⟨?_, by simpa [zeroIdL] using hc2⟩
        simp only [freshElem, Bool.and_eq_true] at hfh
        simpa [hasAttr, Node.attrList] using hfh.1.2
      · rw [hel]
        simp only [shapeL, List.map_cons, List.all_cons, Bool.and_eq_true]
        refine ⟨by simp [shapePred, wrapView, htag], by simpa [shapeL] using hc3⟩
      · rw [hel]
        simp only [textsL, List.map_cons, List.all_cons, Bool.and_eq_true]
        constructor
        · simp only [textsPred, wrapView, Bool.or_eq_true]
          right
          refine (List.all_eq_true).mpr (fun k hk => ?_)
          obtain ⟨c2, hc2mem, hc2eq⟩ := List.mem_map.mp hk
          have hmem : c2 ∈ (wrapF i ch).1.toList := by
            simpa [Node.childForest] using hc2mem
          have := (List.all_eq_true).mp hc6 c2 hmem
          cases c2 with
          | text s2 =>
              rw [← hc2eq]
              simpa [topOK] using this
          | elem t2 a2 cl2 ch2 => rw [← hc2eq]
        · simpa [textsL] using hc4
      · rw [hel]
        simp only [seqL, List.map_cons, List.filterMap_cons]
        rw [show wrapView (.elem t a c (wrapF i ch).1) =
            ⟨t, ((a.filter (fun p => p.1 = seqAttr)).length), getA a seqAttr,
              ((wrapF i ch).1.toList.map kidShape)⟩ from by
          simp [wrapView, Node.tagName, Node.attrList, Node.childForest, kidShape]
          rfl]
        have : (t = wrapTag) = False := by
          simp only [Node.tagName] at htag
          simp [htag]
        simp only [this, if_false]
        simpa [seqL, tcN] using hc5

theorem wrapF_inv (f : Forest) (i : Nat) (hf : (elemsF f).all freshElem = true) :
    (wrapF i f).2 = i + tcF f ∧
    zeroIdL (elemsF (wrapF i f).1) = true ∧
    shapeL (elemsF (wrapF i f).1) = true ∧
    textsL (elemsF (wrapF i f).1) = true ∧
    seqL (elemsF (wrapF i f).1) = seqRangeR i (tcF f) ∧
    (wrapF i f).1.toList.all topOK = true := by
  cases f with
  | fnil =>
      refine ⟨by simp [wrapF, tcF], ?_, ?_, ?_, ?_, ?_⟩ <;>
        simp [wrapF, elemsF, zeroIdL, shapeL, textsL, seqL, seqRangeR, natRange, tcF,
          Forest.toList]
  | fcons n rest =>
      simp only [elemsF, List.all_append, Bool.and_eq_true] at hf
      obtain ⟨hfn, hfr⟩ := hf
      obtain ⟨hn1, hn2, hn3, hn4, hn5, hn6⟩ := wrapN_inv n i hfn
      obtain ⟨hr1, hr2, hr3, hr4, hr5, hr6⟩ := wrapF_inv rest (wrapN i n).2 hfr
      have hres : wrapF i (.fcons n rest) =
          (.fcons (wrapN i n).1 (wrapF (wrapN i n).2 rest).1, (wrapF (wrapN i n).2 rest).2) := by
        simp [wrapF]
      have hel : elemsF (wrapF i (.fcons n rest)).1 =
          elemsN (wrapN i n).1 ++ elemsF (wrapF (wrapN i n).2 rest).1 := by
        rw [hres]
        rfl
      refine ⟨?_, ?_, ?_, ?_, ?_, ?_⟩
      · rw [hres]
        simp only [tcF]
        rw [hr1, hn1]
        omega
      · rw [hel, zeroIdL_append, hn2, hr2]
        rfl
      · rw [hel, shapeL_append, hn3, hr3]
        rfl
      · rw [hel, textsL_append, hn4, hr4]
        rfl
      · rw [hel, seqL_append, hn5, hr5, hn1, seqRangeR_append]
        simp [tcF]
      · rw [hres]
        simp only [Forest.toList, List.all_cons, Bool.and_eq_true]
        exact ⟨hn6, hr6⟩
end

mutual
/-- `_label_elements` invariant: on a tree without id attributes it
advances the counter by the number of elements, assigns the ids
`mkId i, mkId (i+1), …` in document order, gives every element exactly one
id binding, and changes nothing that the wrapper/sequence checks read. -/
theorem labelN_inv (n : Node) (i : Nat) (hz : zeroIdL (elemsN n) = true) :
    (labelN i n).2 = i + (elemsN n).length ∧
    (elemsN (labelN i n).1).map (fun e => getAttr e idAttr) =
      (natRange i (elemsN n).length).map (fun k => some (mkId k)) ∧
    (elemsN (labelN i n).1).all
      (fun e => (e.attrList.filter (fun p => p.1 = idAttr)).length = 1) = true ∧
    (elemsN (labelN i n).1).map wrapView = (elemsN n).map wrapView ∧
    topOK (labelN i n).1 = topOK n ∧
    kidShape (labelN i n).1 = kidShape n := by
  cases n with
  | text s =>
      refine ⟨?_, ?_, ?_, ?_, ?_, ?_⟩ <;> simp [labelN, elemsN, natRange]
  | elem t a c ch =>
      simp only [zeroIdL, elemsN_elem, List.all_cons, Bool.and_eq_true] at hz
      obtain ⟨hzh, hzt⟩ := hz
      rw [show ((elemsF ch).all fun e => !hasAttr e idAttr) = zeroIdL (elemsF ch) from rfl]
        at hzt
      obtain ⟨hc1, hc2, hc3, hc4, hc5, hc6⟩ := labelF_inv ch (i + 1) hzt
      have hane : a.all (fun p => ¬p.1 = idAttr) = true := by
        refine hasAttr_false_all t a c ch idAttr ?_
        simpa using hzh
      have hres : labelN i (.elem t a c ch) =
          (.elem t (setAttr a idAttr (mkId i)) c (labelF (i + 1) ch).1,
            (labelF (i + 1) ch).2) := by
        simp [labelN]
      have hel : elemsN (labelN i (.elem t a c ch)).1 =
          .elem t (setAttr a idAttr (mkId i)) c (labelF (i + 1) ch).1 ::
            elemsF (labelF (i + 1) ch).1 := by
        rw [hres, elemsN_elem]
      have hlen : (elemsN (.elem t a c ch)).length = 1 + (elemsF ch).length := by
        rw [elemsN_elem]
        simp [Nat.add_comm]
      refine ⟨?_, ?_, ?_, ?_, by rw [hres]; rfl, by rw [hres]; rfl⟩
      · rw [hres, hlen]
        simpa [Nat.add_assoc, Nat.add_comm 1] using hc1
      · rw [hel, hlen, List.map_cons]
        have hhead : getAttr
            (.elem t (setAttr a idAttr (mkId i)) c (labelF (i + 1) ch).1) idAttr =
            some (mkId i) := by
          rw [getAttr_elem_getA, getA_setAttr_self]
        rw [hhead]
        have : (1 : Nat) + (elemsF ch).length = (elemsF ch).length + 1 := Nat.add_comm _ _
        rw [this]
        simp only [natRange, List.map_cons]
        rw [hc2]
      · rw [hel]
        simp only [List.all_cons, Bool.and_eq_true]
        refine ⟨?_, hc3⟩
        simp only [Node.attrList, decide_eq_true_eq]
        simpa using setAttr_filter_fresh a idAttr (mkId i) hane
      · rw [hel, elemsN_elem, List.map_cons, List.map_cons]
        have hview : wrapView (.elem t (setAttr a idAttr (mkId i)) c (labelF (i + 1) ch).1) =
            wrapView (.elem t a c ch) := by
          have hne : seqAttr ≠ idAttr := by decide
          simp only [wrapView, Node.tagName, Node.attrList, Node.childForest,
            WrapView.mk.injEq]
          refine ⟨by trivial, ?_, ?_, ?_⟩
          · rw [setAttr_filter_ne a idAttr (mkId i) seqAttr hne]
          · show getA (setAttr a idAttr (mkId i)) seqAttr = getA a seqAttr
            exact getA_setAttr_ne a idAttr (mkId i) seqAttr hne
          · have := hc6
            simp only [kidShape] at this ⊢
            exact this
        rw [hview, hc4]

theorem labelF_inv (f : Forest) (i : Nat) (hz : zeroIdL (elemsF f) = true) :
    (labelF i f).2 = i + (elemsF f).length ∧
    (elemsF (labelF i f).1).map (fun e => getAttr e idAttr) =
      (natRange i (elemsF f).length).map (fun k => some (mkId k)) ∧
    (elemsF (labelF i f).1).all
      (fun e => (e.attrList.filter (fun p => p.1 = idAttr)).length = 1) = true ∧
    (elemsF (labelF i f).1).map wrapView = (elemsF f).map wrapView ∧
    (labelF i f).1.toList.map topOK = f.toList.map topOK ∧
    (labelF i f).1.toList.map kidShape = f.toList.map kidShape := by
  cases f with
  | fnil =>
      refine ⟨?_, ?_, ?_, ?_, ?_, ?_⟩ <;> simp [labelF, elemsF, natRange, Forest.toList]
  | fcons n rest =>
      simp only [elemsF, zeroIdL, List.all_append, Bool.and_eq_true] at hz
      obtain ⟨hzn, hzr⟩ := hz
      obtain ⟨hn1, hn2, hn3, hn4, hn5, hn6⟩ := labelN_inv n i hzn
      obtain ⟨hr1, hr2, hr3, hr4, hr5, hr6⟩ := labelF_inv rest (labelN i n).2 hzr
      have hres : labelF i (.fcons n rest) =
          (.fcons (labelN i n).1 (labelF (labelN i n).2 rest).1,
            (labelF (labelN i n).2 rest).2) := by
        simp [labelF]
      have hel : elemsF (labelF i (.fcons n rest)).1 =
          elemsN (labelN i n).1 ++ elemsF (labelF (labelN i n).2 rest).1 := by
        rw [hres]
        rfl
      refine ⟨?_, ?_, ?_, ?_, ?_, ?_⟩
      · rw [hres]
        simp only [elemsF, List.length_append]
        rw [hr1, hn1]
        omega
      · rw [hel, List.map_append, hn2, hr2, hn1]
        have : (elemsF (.fcons n rest)).length = (elemsN n).length + (elemsF rest).length := by
          simp [elemsF]
        rw [this, ← List.map_append, natRange_append]
      · rw [hel, List.all_append, hn3, hr3]
        rfl
      · rw [hel, List.map_append, hn4, hr4]
        simp [elemsF]
      · rw [hres]
        simp only [Forest.toList, List.map_cons]
        rw [hn5, hr5]
      · rw [hres]
        simp only [Forest.toList, List.map_cons]
        rw [hn6, hr6]
end

theorem textsPred_of_top (t : String) (a : List (String × String))
    (c : Option (List String)) (f : Forest) (h : f.toList.all topOK = true) :
    textsPred (wrapView (.elem t a c f)) = true := by
  simp only [textsPred, wrapView, Node.tagName, Node.childForest, Bool.or_eq_true]
  right
  refine (List.all_eq_true).mpr (fun k hk => ?_)
  obtain ⟨c2, hm, he⟩ := List.mem_map.mp hk
  have := (List.all_eq_true).mp h c2 hm
  cases c2 with
  | text s2 =>
      rw [← he]
      simpa [topOK] using this
  | elem t2 a2 cl2 ch2 => rw [← he]

/-- C8: on a fresh snapshot, `_wrap_text_nodes` then `_label_elements`
leaves every non-empty text node inside exactly one well-formed synthetic
wrapper (one `seq` binding, one text child), no visible text outside
wrappers, the wrapper sequence values `qw7x_1_p9m2, qw7x_2_p9m2, …` in
document order, and gives every element — wrappers included — exactly one
id binding, the ids `q7y5n3j6h_0, q7y5n3j6h_1, …` in document order, all
distinct. -/
theorem addressing_invariant (soup : Node) (he : soup.isElem = true)
    (hf : freshB soup = true) :
    shapeL (elemsN (labelElements (wrapTextNodes soup))) = true ∧
    textsL (elemsN (labelElements (wrapTextNodes soup))) = true ∧
    seqL (elemsN (labelElements (wrapTextNodes soup))) = seqRangeR 1 (tcN soup) ∧
    (descendantElems (labelElements (wrapTextNodes soup))).all
      (fun e => (e.attrList.filter (fun p => p.1 = idAttr)).length = 1) = true ∧
    (descendantElems (labelElements (wrapTextNodes soup))).map (fun e => getAttr e idAttr) =
      (natRange 0 (descendantElems (wrapTextNodes soup)).length).map
        (fun k => some (mkId k)) ∧
    ((descendantElems (labelElements (wrapTextNodes soup))).map
        (fun e => getAttr e idAttr)).Nodup := by
  cases soup with
  | text s => simp [Node.isElem] at he
  | elem t a c ch =>
      simp only [freshB, elemsN_elem, List.all_cons, Bool.and_eq_true] at hf
      obtain ⟨hfh, hft⟩ := hf
      obtain ⟨hw1, hw2, hw3, hw4, hw5, hw6⟩ := wrapF_inv ch 1 hft
      have hwrap : wrapTextNodes (.elem t a c ch) = .elem t a c (wrapF 1 ch).1 := rfl
      have hlab : labelElements (.elem t a c (wrapF 1 ch).1) =
          .elem t a c (labelF 0 (wrapF 1 ch).1).1 := rfl
      obtain ⟨hl1, hl2, hl3, hl4, hl5, hl6⟩ := labelF_inv (wrapF 1 ch).1 0 hw2
      have htag : t ≠ wrapTag := by
        simp only [freshElem, Bool.and_eq_true, decide_eq_true_eq, Node.tagName] at hfh
        exact hfh.1.1
      rw [hwrap, hlab]
      have helems : elemsN (.elem t a c (labelF 0 (wrapF 1 ch).1).1) =
          .elem t a c (labelF 0 (wrapF 1 ch).1).1 :: elemsF (labelF 0 (wrapF 1 ch).1).1 := by
        rw [elemsN_elem]
      have hdesc : descendantElems (.elem t a c (labelF 0 (wrapF 1 ch).1).1) =
          elemsF (labelF 0 (wrapF 1 ch).1).1 := rfl
      refine ⟨?_, ?_, ?_, ?_, ?_, ?_⟩
      · rw [helems]
        simp only [shapeL, List.map_cons, List.all_cons, Bool.and_eq_true]
        refine ⟨by simp [shapePred, wrapView, Node.tagName, htag], ?_⟩
        have : shapeL (elemsF (labelF 0 (wrapF 1 ch).1).1) =
            shapeL (elemsF (wrapF 1 ch).1) := by
          simp only [shapeL, hl4]
        simpa [shapeL] using this.trans hw3
      · rw [helems]
        simp only [textsL, List.map_cons, List.all_cons, Bool.and_eq_true]
        constructor
        · refine textsPred_of_top t a c _ ?_
          have hpt : (labelF 0 (wrapF 1 ch).1).1.toList.map topOK =
              (wrapF 1 ch).1.toList.map topOK := hl5
          refine (List.all_eq_true).mpr (fun c2 hm => ?_)
          have : topOK c2 ∈ (wrapF 1 ch).1.toList.map topOK := by
            rw [← hpt]
            exact List.mem_map_of_mem topOK hm
          obtain ⟨c3, hm3, he3⟩ := List.mem_map.mp this
          rw [← he3]
          exact (List.all_eq_true).mp hw6 c3 hm3
        · have : textsL (elemsF (labelF 0 (wrapF 1 ch).1).1) =
              textsL (elemsF (wrapF 1 ch).1) := by
            simp only [textsL, hl4]
          simpa [textsL] using this.trans hw4
      · rw [helems]
        simp only [seqL, List.map_cons, List.filterMap_cons]
        have hv : (wrapView (.elem t a c (labelF 0 (wrapF 1 ch).1).1)).tag = t := rfl
        rw [show (if (wrapView (.elem t a c (labelF 0 (wrapF 1 ch).1).1)).tag = wrapTag then
              some (wrapView (.elem t a c (labelF 0 (wrapF 1 ch).1).1)).seqVal
            else none) = none from by rw [hv]; simp [htag]]
        have : seqL (elemsF (labelF 0 (wrapF 1 ch).1).1) =
            seqL (elemsF (wrapF 1 ch).1) := by
          simp only [seqL, hl4]
        simpa [seqL, tcN] using this.trans hw5
      · rw [hdesc]
        exact hl3
      · rw [hdesc]
        exact hl2
      · rw [hdesc, hl2]
        refine List.Nodup.map ?_ (natRange_nodup 0 _)
        intro x y hxy
        simp only [Option.some.injEq] at hxy
        exact mkId_injective hxy

/-- A small fresh snapshot for the addressing invariant. -/
def ex8 : Node :=
  el "[document]" []
    [el "html" []
      [txt "  ",
       el "body" []
        [el "p" [("class-x", "y")] [txt "Hello", el "b" [] [txt "bold"]],
         txt "World"]]]

theorem addressing_invariant_witness :
    ex8.isElem = true ∧ freshB ex8 = true ∧
      seqL (elemsN (labelElements (wrapTextNodes ex8))) = seqRangeR 1 (tcN ex8) ∧
      (descendantElems (labelElements (wrapTextNodes ex8))).map (fun e => getAttr e idAttr) =
        (natRange 0 (descendantElems (wrapTextNodes ex8)).length).map
          (fun k => some (mkId k)) :=
  ⟨by decide, by decide,
    (addressing_invariant ex8 (by decide) (by decide)).2.2.1,
    (addressing_invariant ex8 (by decide) (by decide)).2.2.2.2.1⟩

/- ## `NewsGroupFinder.find_news_group`, `news_url_extractor.py` (C3, C10) -/

/-- `_is_social_media_url` (the Python function returns `1`/`0`): the
`x.com` substring tests, then the domain patterns
`(?:^|[/.])?domain\.com(?:/|$)` under `re.IGNORECASE` — the optional
leading group is vacuous, so each is "domain followed by `/` or the end".
-/
def isSocialMediaUrl (url : String) : Bool :=
  let ul := pyLower url
  strContains ul "/x.com" || strContains ul "www.x.com" ||
  (["facebook.com", "twitter.com", "instagram.com", "linkedin.com", "youtube.com",
    "tiktok.com", "pinterest.com", "reddit.com",
    "whatsapp.com"].any (fun d => subFollowedBySlashOrEnd ul.data d.data))

/-- An anchor as `find_news_group` consumes it: href, visible text and the
flexible (tag-name) ancestry key.  The strict ancestry and the twin /
intersection / mean-length / url-structure-count features also computed by
the source are never consulted by the filter cascade and are not carried.
-/
structure Anchor where
  href : String
  text : String
  flexAnc : String
deriving DecidableEq

/-- `_get_flexible_ancestry`: ancestor tag names root-first, joined by
`' > '`; `anc` is the nearest-first ancestor chain (ending at the
`[document]` node, as BS4's `.parent` chain does). -/
def mkFlex (anc : List Node) : String :=
  String.intercalate " > " ((anc.map Node.tagName).reverse)

/-- The anchors of `soup.find_all('a', href=True)` with the invalid-href
and social-media exclusions of `find_news_group`. -/
def anchorsOf (soup : Node) : List Anchor :=
  (elemsAncF [soup] soup.childForest).filterMap (fun p =>
    if p.1.tagName = "a" then
      match getAttr p.1 "href" with
      | some h => some ⟨h, getTextStrip p.1, mkFlex p.2⟩
      | none => none
    else none)

def validAnchors (soup : Node) : List Anchor :=
  (anchorsOf soup).filter (fun a =>
    !(["/", "", "#", "javascript:void(0)"].contains a.href) &&
    !strStarts a.href "#" && !strStarts a.href "tel:" && !strStarts a.href "mailto:" &&
    !isSocialMediaUrl a.href)

/-- One step of the `defaultdict` grouping with per-ancestry href dedup. -/
def addAnchor (groups : List (String × List Anchor)) (a : Anchor) :
    List (String × List Anchor) :=
  match groups with
  | [] => [(a.flexAnc, [a])]
  | (k, as0) :: rest =>
      if k = a.flexAnc then
        if as0.any (fun b => b.href = a.href) then (k, as0) :: rest
        else (k, as0 ++ [a]) :: rest
      else (k, as0) :: addAnchor rest a

/-- Group anchors by flexible ancestry, first-seen order, unique hrefs
within a group. -/
def groupAnchors (ancs : List Anchor) : List (List Anchor) :=
  (ancs.foldl addAnchor []).map Prod.snd

/-- `url_patterns` of `_is_typical_url`. -/
def typicalUrlPatterns : List String :=
  ["/legal", "/legal/", "/terms", "/terms/", "/privacy", "/privacy/",
   "/contact", "/contact/", "/careers", "/careers/", "/support", "/support/",
   "/blog", "/blog/", "/events", "/events/", "/about", "/about/",
   "/faq", "/faq/", "/investors", "/investors/", "/search", "/search/",
   "/sitemap", "/sitemap/", "/login", "/login/", "/register", "/register/",
   "/help", "/help/", "/company", "/company/"]

def typicalKeywords : List String :=
  ["legal", "terms", "policy", "privacy", "contact", "careers",
   "conditions", "locations", "faq", "investors", "about", "settings",
   "cookies", "blog", "support", "help", "resources", "events",
   "login", "register", "account", "search", "sitemap", "media",
   "press", "directory", "community", "company"]

/-- `re.sub(r'^https?://[^/]+', '', url.lower())`: strip protocol and
authority when present (the `[^/]+` needs at least one non-slash char). -/
def stripProtoDomain (url : String) : String :=
  let l := (pyLower url).data
  let tryp : List Char → Option (List Char) := fun proto =>
    if proto.isPrefixOf l then
      match l.drop proto.length with
      | [] => none
      | c :: r => if c = '/' then none else some ((c :: r).dropWhile (· ≠ '/'))
    else none
  match tryp "https://".data with
  | some r => ⟨r⟩
  | none =>
      match tryp "http://".data with
      | some r => ⟨r⟩
      | none => ⟨l⟩

/-- `_is_typical_url` on an anchor: exact utility path, else short anchor
text containing a navigation keyword. -/
def isTypicalUrl (a : Anchor) : Bool :=
  if typicalUrlPatterns.contains (stripProtoDomain a.href) then true
  else if a.text = "" then false
  else
    let words := (splitRuns (fun c => pyWS c || c = '-') a.text.data).map
      (fun w => pyLower ⟨w⟩)
    words.length ≤ 4 && typicalKeywords.any (fun k => words.contains k)

/-- `re.sub(r'^https?://', '', url)` (protocol only). -/
def dropProto (l : List Char) : List Char :=
  if "https://".data.isPrefixOf l then l.drop 8
  else if "http://".data.isPrefixOf l then l.drop 7
  else l

/-- The `multi_level_path` component of `_analyze_url_structure` (the only
component the filter cascade consults). -/
def multiLevelPath (url : String) : Bool :=
  if strStarts url "/" then true
  else
    let wop := dropProto url.data
    let pathPart := ((splitChar '#' ((splitChar '?' wop).headD [])).headD [])
    if pathPart.any (· = '/') then
      ((splitChar '/' pathPart).filter (fun s => !s.isEmpty)).length ≥ 2
    else false

/-- `re.search(r'\.[a-zA-Z0-9]+$', seg)`: a dot followed by a non-empty
alphanumeric run at the end. -/
def hasFileExt (l : List Char) : Bool :=
  let rev := l.reverse
  let run := rev.takeWhile isAlnum
  !run.isEmpty && (rev.drop run.length).head? = some '.'

/-- The meaningful last path segment shared by `_get_last_path_length` and
`_has_verb_with_context`: strip query/fragment, strip trailing slashes,
take the last segment, stepping over a file extension. -/
def lastSegment (url : String) : Option (List Char) :=
  let cu := (splitChar '#' ((splitChar '?' url.data).headD [])).headD []
  let cu := (cu.reverse.dropWhile (· = '/')).reverse
  let segments := splitChar '/' cu
  if segments.isEmpty then none
  else
    let last := segments.getLastD []
    if hasFileExt last then
      if segments.length < 2 then none
      else some (segments.getD (segments.length - 2) [])
    else some last

/-- `_get_last_path_length`. -/
def lastPathLength (url : String) : Nat :=
  match lastSegment url with
  | some seg => seg.length
  | none => 0

def verbList : List String :=
  ["announce", "start", "end", "finish", "open", "close", "report",
   "initiate", "terminate", "invest", "join", "collaborate", "hire",
   "agree", "surpass", "applaud", "raise", "deliver", "unveil", "plan",
   "showcase", "introduce", "present", "grant", "sign", "invest",
   "complete", "receive", "grant", "give", "select", "partner", "signal",
   "continue", "stop", "win", "launch", "set", "visit", "achieve",
   "dismiss", "take", "accelerate", "reach", "indicate", "enter", "exit",
   "produce", "create", "make", "move", "host", "locate", "forms"]

/-- `_get_verb_variations`: base, s-form (plus `-ies`), and past tense
(irregular map, else `-d`/`-ied`/`-ed`). -/
def verbVariations (verb : String) : List String :=
  let sForms := [verb, verb ++ "s"] ++
    (if strEnds verb "y" then [⟨verb.data.dropLast ++ "ies".data⟩] else [])
  let irregular : List (String × String) :=
    [("take", "took"), ("give", "gave"), ("make", "made"), ("begin", "began"),
     ("win", "won"), ("set", "set"), ("create", "created")]
  let past :=
    match irregular.find? (fun p => p.1 = verb) with
    | some p => p.2
    | none =>
        if strEnds verb "e" then verb ++ "d"
        else if strEnds verb "y" then ⟨verb.data.dropLast ++ "ied".data⟩
        else verb ++ "ed"
  sForms ++ [past]

/-- Split on every single occurrence of a class character (`re.split`
with a character class and no quantifier). -/
def splitPred (p : Char → Bool) (l : List Char) : List (List Char) :=
  match l with
  | [] => [[]]
  | c :: t =>
      let r := splitPred p t
      if p c then [] :: r
      else
        match r with
        | [] => [[c]]
        | w :: ws => (c :: w) :: ws

/-- `_has_verb_with_context`. -/
def hasVerbWithContext (url : String) : Bool :=
  match lastSegment url with
  | none => false
  | some seg =>
      let words := (splitPred (fun c => c = '-' || c = '_' || pyWS c || c = '.') seg).filterMap
        (fun w => if w.isEmpty then none else some (pyLower ⟨w⟩))
      if words.length ≤ 1 then false
      else verbList.any (fun v => (verbVariations v).any (fun var => words.contains var))

def insertSorted (x : Nat) : List Nat → List Nat
  | [] => [x]
  | y :: t => if x ≤ y then x :: y :: t else y :: insertSorted x t

/-- Python `sorted` on naturals. -/
def insertionSort (l : List Nat) : List Nat := l.foldr insertSorted []

/-- The group features the filter cascade consults (`group_info`). -/
structure AnchorGroup where
  urls : List String
  urlCount : Nat
  numTypical : Nat
  socialNum : Nat
  multiCount : Nat
  verbCount : Nat
  lastPathMedian : Nat
deriving DecidableEq

def mkGroup (as0 : List Anchor) : AnchorGroup :=
  let urls := as0.map (fun a => a.href)
  let lens := urls.map lastPathLength
  { urls := urls
    urlCount := urls.length
    numTypical := (as0.filter isTypicalUrl).length
    socialNum := (urls.filter (fun u => isSocialMediaUrl u)).length
    multiCount := (urls.filter multiLevelPath).length
    verbCount := (urls.filter hasVerbWithContext).length
    lastPathMedian :=
      if lens.isEmpty then 0 else (insertionSort lens).getD (lens.length / 2) 0 }

/-- Python `frozenset(a) == frozenset(b)`. -/
def urlSetEq (a b : List String) : Bool :=
  (a.all (fun x => b.contains x)) && (b.all (fun x => a.contains x))

/-- `drop_duplicates(subset=['urls_set'])`: keep the first group of each
distinct URL set. -/
def dedupGroups : List AnchorGroup → List AnchorGroup :=
  let rec go (seen : List (List String)) : List AnchorGroup → List AnchorGroup
    | [] => []
    | g :: t =>
        if seen.any (fun s => urlSetEq s g.urls) then go seen t
        else g :: go (g.urls :: seen) t
  go []

/-- `_make_absolute_url`. -/
def makeAbsoluteUrl (base url : String) : String :=
  if strStarts url "http" then url
  else rstripSlash base ++ "/" ++ lstripSlash url

/-- The groups of a page as the DataFrame rows after duplicate-URL-set
removal. -/
def pageGroups (soup : Node) : List AnchorGroup :=
  dedupGroups ((groupAnchors (validAnchors soup)).map mkGroup)

/-- The primary candidate filter: zero typical URLs, more than 4 URLs,
zero social URLs, `multi_level_path_pct == 1` (exactly: every URL
multi-level). -/
def primaryFilter (groups : List AnchorGroup) : List AnchorGroup :=
  groups.filter (fun g =>
    g.numTypical = 0 && g.urlCount > 4 && g.socialNum = 0 && g.multiCount = g.urlCount)

/-- The guarded `verb_percentage > 20` filter (`> 20%` is exactly
`5 * verbCount > urlCount`). -/
def verbStep (c : List AnchorGroup) : List AnchorGroup :=
  if c.length > 1 then
    let hv := c.filter (fun g => 5 * g.verbCount > g.urlCount)
    if hv.length > 0 then hv else c
  else c

/-- Keep the groups tied for the maximum `last_path_median_length`. -/
def medianStep (c : List AnchorGroup) : List AnchorGroup :=
  if c.length > 1 then
    c.filter (fun g => g.lastPathMedian = (c.map (fun g => g.lastPathMedian)).foldl max 0)
  else c

/-- Keep the groups tied for the maximum `url_count`. -/
def countStep (c : List AnchorGroup) : List AnchorGroup :=
  if c.length > 1 then
    c.filter (fun g => g.urlCount = (c.map (fun g => g.urlCount)).foldl max 0)
  else c

def cascadeSteps (groups : List AnchorGroup) : List AnchorGroup :=
  countStep (medianStep (verbStep (primaryFilter groups)))

/-- `NewsGroupFinder.find_news_group`.  `Except.error c` models the
`KeyError` the pandas column access raises (re-raised as `Exception`) when
column `c` does not exist: with no anchor groups the frame has no `urls`
column; when no group at all has a multi-level URL the
`multi_level_path_pct` key never enters any row. -/
def findNewsGroup (base : String) (soup : Node) : Except String (Option AnchorGroup) :=
  let groups0 := (groupAnchors (validAnchors soup)).map mkGroup
  if groups0.isEmpty then Except.error "urls"
  else if groups0.all (fun g => g.multiCount = 0) then Except.error "multi_level_path_pct"
  else
    match cascadeSteps (dedupGroups groups0) with
    | [g] => Except.ok (some { g with urls := g.urls.map (makeAbsoluteUrl base) })
    | _ => Except.ok none

/-- The claim-side secondary filters, each "applied only while more than
one candidate remains and the filter does not eliminate all candidates". -/
def claimVerb (p : List AnchorGroup) : List AnchorGroup :=
  if p.length > 1 && (p.filter (fun g => 5 * g.verbCount > g.urlCount)).length > 0 then
    p.filter (fun g => 5 * g.verbCount > g.urlCount)
  else p

def claimMedian (c : List AnchorGroup) : List AnchorGroup :=
  if c.length > 1 && (c.filter (fun g =>
      g.lastPathMedian = (c.map (fun g => g.lastPathMedian)).foldl max 0)).length > 0 then
    c.filter (fun g => g.lastPathMedian = (c.map (fun g => g.lastPathMedian)).foldl max 0)
  else c

def claimCount (c : List AnchorGroup) : List AnchorGroup :=
  if c.length > 1 && (c.filter (fun g =>
      g.urlCount = (c.map (fun g => g.urlCount)).foldl max 0)).length > 0 then
    c.filter (fun g => g.urlCount = (c.map (fun g => g.urlCount)).foldl max 0)
  else c

/-- The filter cascade in the claim's words: primary filters, then the
three guarded secondary filters. -/
def claimCascade (groups : List AnchorGroup) : List AnchorGroup :=
  claimCount (claimMedian (claimVerb (primaryFilter groups)))

theorem foldlMax_cases (l : List Nat) (a : Nat) :
    l.foldl max a = a ∨ l.foldl max a ∈ l := by
  induction l generalizing a with
  | nil => exact Or.inl rfl
  | cons x t ih =>
      simp only [List.foldl_cons]
      rcases ih (max a x) with h | h
      · rcases max_choice a x with h2 | h2
        · exact Or.inl (h.trans h2)
        · exact Or.inr (by rw [h, h2]; exact List.mem_cons_self _ _)
      · exact Or.inr (List.mem_cons_of_mem _ h)

theorem foldlMax_acc_le (l : List Nat) (a : Nat) : a ≤ l.foldl max a := by
  induction l generalizing a with
  | nil => exact le_refl a
  | cons x t ih =>
      simp only [List.foldl_cons]
      exact le_trans (le_max_left a x) (ih (max a x))

theorem foldlMax_attained (l : List Nat) (h : l ≠ []) : l.foldl max 0 ∈ l := by
  rcases foldlMax_cases l 0 with h0 | h0
  · cases l with
    | nil => exact absurd rfl h
    | cons x t =>
        have hge : max 0 x ≤ (x :: t).foldl max 0 := by
          simp only [List.foldl_cons]
          exact foldlMax_acc_le t (max 0 x)
        have hge2 : max 0 x ≤ 0 := by
          rw [h0] at hge
          exact hge
        have hx0 : x = 0 := Nat.le_zero.mp (le_trans (le_max_right 0 x) hge2)
        rw [h0, ← hx0]
        exact List.mem_cons_self _ _
  · exact h0

theorem filter_max_nonempty (gs : List AnchorGroup) (key : AnchorGroup → Nat)
    (h : gs ≠ []) :
    0 < (gs.filter (fun g => key g = (gs.map key).foldl max 0)).length := by
  have hm : (gs.map key).foldl max 0 ∈ gs.map key :=
    foldlMax_attained _ (by simpa using h)
  obtain ⟨g, hg, he⟩ := List.mem_map.mp hm
  have : g ∈ gs.filter (fun g => key g = (gs.map key).foldl max 0) :=
    List.mem_filter.mpr ⟨hg, by simp [he]⟩
  exact List.length_pos.mpr (fun hnil => by simp [hnil] at this)

/-- The code's sequential guarded filters compute exactly the claim's
cascade (the median and url-count filters can never eliminate every
candidate, since their maxima are attained). -/
theorem verbStep_eq_claim (c : List AnchorGroup) : verbStep c = claimVerb c := by
  unfold verbStep claimVerb
  by_cases ha : c.length > 1
  · by_cases hb : (c.filter (fun g => 5 * g.verbCount > g.urlCount)).length > 0
    · simp [ha, hb]
    · simp [ha, hb]
  · simp [ha]

theorem medianStep_eq_claim (c : List AnchorGroup) : medianStep c = claimMedian c := by
  unfold medianStep claimMedian
  by_cases ha : c.length > 1
  · have hne : c ≠ [] := by
      intro hh
      rw [hh] at ha
      simp at ha
    have hb := filter_max_nonempty c (fun g => g.lastPathMedian) hne
    simp [ha, hb]
  · simp [ha]

theorem countStep_eq_claim (c : List AnchorGroup) : countStep c = claimCount c := by
  unfold countStep claimCount
  by_cases ha : c.length > 1
  · have hne : c ≠ [] := by
      intro hh
      rw [hh] at ha
      simp at ha
    have hb := filter_max_nonempty c (fun g => g.urlCount) hne
    simp [ha, hb]
  · simp [ha]

theorem cascadeSteps_eq_claimCascade (groups : List AnchorGroup) :
    cascadeSteps groups = claimCascade groups := by
  unfold cascadeSteps claimCascade
  rw [verbStep_eq_claim, medianStep_eq_claim, countStep_eq_claim]

theorem findNewsGroup_eq_cascade (base : String) (soup : Node)
    (r : Option AnchorGroup) (hok : findNewsGroup base soup = Except.ok r) :
    (∃ g, r = some g) ↔ (claimCascade (pageGroups soup)).length = 1 := by
  unfold findNewsGroup at hok
  by_cases h0 : ((groupAnchors (validAnchors soup)).map mkGroup).isEmpty = true
  · rw [if_pos h0] at hok
    exact absurd hok (by simp)
  · rw [if_neg h0] at hok
    by_cases h1 : ((groupAnchors (validAnchors soup)).map mkGroup).all
        (fun g => g.multiCount = 0) = true
    · rw [if_pos h1] at hok
      exact absurd hok (by simp)
    · rw [if_neg h1] at hok
      rw [← cascadeSteps_eq_claimCascade]
      have hpg : pageGroups soup = dedupGroups ((groupAnchors (validAnchors soup)).map mkGroup) :=
        rfl
      rw [hpg]
      cases hm : cascadeSteps (dedupGroups ((groupAnchors (validAnchors soup)).map mkGroup)) with
      | nil =>
          rw [hm] at hok
          injection hok with hok
          constructor
          · rintro ⟨g, hg⟩
            rw [← hok] at hg
            cases hg
          · intro hlen
            simp at hlen
      | cons g1 rest =>
          cases rest with
          | nil =>
              rw [hm] at hok
              injection hok with hok
              exact ⟨fun _ => rfl, fun _ => ⟨_, hok.symm⟩⟩
          | cons g2 t =>
              rw [hm] at hok
              injection hok with hok
              constructor
              · rintro ⟨g, hg⟩
                rw [← hok] at hg
                cases hg
              · intro hlen
                simp at hlen

/- ### C3: the scenario page and the exception edge case -/

def newsHrefs : List String :=
  ["/news/company-announces-item-aa", "/news/company-announces-item-ab",
   "/news/company-announces-item-ac", "/news/company-announces-item-ad",
   "/news/company-announces-item-ae", "/news/company-announces-item-af"]

def newsLi (href : String) : Node :=
  el "li" [] [el "a" [("href", href)] [txt "Quarterly results described in detail"]]

/-- The C3 scenario page: a 6-URL verb-bearing `/news/` group (depth-2
relative paths) against a 4-URL utility group. -/
def ex3 : Node :=
  el "[document]" []
    [el "html" []
      [el "body" []
        [el "div" [] [el "ul" [] (newsHrefs.map newsLi)],
         el "footer" []
          [el "a" [("href", "/legal")] [txt "Legal"],
           el "a" [("href", "/privacy")] [txt "Privacy"],
           el "a" [("href", "/contact")] [txt "Contact"],
           el "a" [("href", "/about")] [txt "About"]]]]]

/-- The group `find_news_group` returns on `ex3` (URLs absolutized). -/
def ex3group : AnchorGroup :=
  { urls := newsHrefs.map (makeAbsoluteUrl "https://ex.com")
    urlCount := 6
    numTypical := 0
    socialNum := 0
    multiCount := 6
    verbCount := 6
    lastPathMedian := 25 }

/-- A page whose only anchor group has no multi-level URL: the
`multi_level_path_pct` column never exists and the pandas lookup raises. -/
def ex3err : Node :=
  el "[document]" []
    [el "html" []
      [el "body" []
        [el "a" [("href", "https://one.example")] [txt "A single top level link here"]]]]

/-- C3 counterexample: on `ex3err` no group survives the cascade, so the
claim requires a null return — but `find_news_group` raises (the pandas
`KeyError 'multi_level_path_pct'`, re-raised as `Exception`) instead of
returning null. -/
theorem find_news_group_error_counterexample :
    (claimCascade (pageGroups ex3err)).length ≠ 1 ∧
    findNewsGroup "https://ex.com" ex3err = Except.error "multi_level_path_pct" := by
  constructor
  · decide
  · decide

/-- C3 amended: whenever `find_news_group` returns (some anchor group
exists and some group has a multi-level URL — otherwise the pandas column
access raises instead of returning null), it returns a result exactly when
one anchor group survives the claim's filter cascade, and null otherwise;
on the scenario page the 6-URL verb-bearing `/news/` group is returned,
absolutized. -/
theorem find_news_group_cascade :
    (∀ (base : String) (soup : Node) (r : Option AnchorGroup),
        findNewsGroup base soup = Except.ok r →
          ((∃ g, r = some g) ↔ (claimCascade (pageGroups soup)).length = 1)) ∧
    findNewsGroup "https://ex.com" ex3 = Except.ok (some ex3group) :=
  ⟨findNewsGroup_eq_cascade, by decide⟩

theorem find_news_group_cascade_witness :
    findNewsGroup "https://ex.com" ex3 = Except.ok (some ex3group) ∧
      ((∃ g, (some ex3group : Option AnchorGroup) = some g) ↔
        (claimCascade (pageGroups ex3)).length = 1) :=
  ⟨by decide,
    find_news_group_cascade.1 "https://ex.com" ex3 (some ex3group) (by decide)⟩

/- ### C10: groups are social-media-free by construction -/

theorem addAnchor_all (P : Anchor → Bool) (groups : List (String × List Anchor))
    (a : Anchor) (hg : groups.all (fun p => p.2.all P) = true) (ha : P a = true) :
    (addAnchor groups a).all (fun p => p.2.all P) = true := by
  induction groups with
  | nil => simp [addAnchor, ha]
  | cons p rest ih =>
      obtain ⟨k, as0⟩ := p
      simp only [List.all_cons, Bool.and_eq_true] at hg
      by_cases hk : k = a.flexAnc
      · by_cases hseen : as0.any (fun b => b.href = a.href) = true
        · simp only [addAnchor, if_pos hk, if_pos hseen, List.all_cons, Bool.and_eq_true]
          exact ⟨hg.1, hg.2⟩
        · simp only [addAnchor, if_pos hk, if_neg hseen, List.all_cons, List.all_append,
            Bool.and_eq_true]
          exact ⟨⟨hg.1, by simp [ha]⟩, hg.2⟩
      · simp only [addAnchor, if_neg hk, List.all_cons, Bool.and_eq_true]
        exact ⟨hg.1, ih hg.2⟩

theorem foldl_addAnchor_all (P : Anchor → Bool) (l : List Anchor) :
    ∀ (acc : List (String × List Anchor)),
      acc.all (fun p => p.2.all P) = true → l.all P = true →
      (l.foldl addAnchor acc).all (fun p => p.2.all P) = true := by
  induction l with
  | nil => intro acc hacc _; exact hacc
  | cons a t ih =>
      intro acc hacc hl
      simp only [List.all_cons, Bool.and_eq_true] at hl
      exact ih (addAnchor acc a) (addAnchor_all P acc a hacc hl.1) hl.2

theorem groupAnchors_all (P : Anchor → Bool) (l : List Anchor) (hl : l.all P = true) :
    ∀ g ∈ groupAnchors l, g.all P = true := by
  intro g hg
  unfold groupAnchors at hg
  obtain ⟨p, hp, he⟩ := List.mem_map.mp hg
  have := (List.all_eq_true).mp (foldl_addAnchor_all P l [] rfl hl) p hp
  rw [← he]
  exact this

theorem validAnchors_social_free (soup : Node) :
    (validAnchors soup).all (fun a => !isSocialMediaUrl a.href) = true := by
  refine (List.all_eq_true).mpr (fun a ha => ?_)
  have := (List.mem_filter.mp ha).2
  simp only [Bool.and_eq_true] at this
  exact this.2

theorem dedupGroups_go_subset (seen : List (List String)) (gs : List AnchorGroup) :
    ∀ g ∈ dedupGroups.go seen gs, g ∈ gs := by
  induction gs generalizing seen with
  | nil => intro g hg; simpa [dedupGroups.go] using hg
  | cons x t ih =>
      intro g hg
      unfold dedupGroups.go at hg
      by_cases hs : seen.any (fun s => urlSetEq s x.urls) = true
      · rw [if_pos hs] at hg
        exact List.mem_cons_of_mem _ (ih seen g hg)
      · rw [if_neg hs] at hg
        rcases List.mem_cons.mp hg with h | h
        · exact h ▸ List.mem_cons_self _ _
        · exact List.mem_cons_of_mem _ (ih (x.urls :: seen) g h)

theorem dedupGroups_subset (gs : List AnchorGroup) :
    ∀ g ∈ dedupGroups gs, g ∈ gs :=
  dedupGroups_go_subset [] gs

theorem group_social_zero (soup : Node) (g : AnchorGroup)
    (hg : g ∈ (groupAnchors (validAnchors soup)).map mkGroup) : g.socialNum = 0 := by
  obtain ⟨as0, has, he⟩ := List.mem_map.mp hg
  have hall := groupAnchors_all (fun a => !isSocialMediaUrl a.href) (validAnchors soup)
    (validAnchors_social_free soup) as0 has
  rw [← he]
  simp only [mkGroup]
  have : (as0.map (fun a => a.href)).filter (fun u => isSocialMediaUrl u) = [] := by
    rw [List.filter_eq_nil_iff]
    intro u hu
    obtain ⟨a, ha, he2⟩ := List.mem_map.mp hu
    have := (List.all_eq_true).mp hall a ha
    simp only [Bool.not_eq_true'] at this
    rw [← he2]
    simp [this]
  rw [this]
  rfl

/-- C10: anchors with social-media hrefs are excluded before grouping, so
every assembled group has a zero social-media count, and the cascade's
zero-social-media filter never eliminates any candidate (dropping that
conjunct from the primary filter changes nothing). -/
theorem groups_social_free :
    (∀ (soup : Node) (g : AnchorGroup),
        g ∈ (groupAnchors (validAnchors soup)).map mkGroup → g.socialNum = 0) ∧
    (∀ soup : Node,
        primaryFilter (pageGroups soup) =
          (pageGroups soup).filter (fun g =>
            g.numTypical = 0 && g.urlCount > 4 && g.multiCount = g.urlCount)) := by
  refine ⟨group_social_zero, fun soup => ?_⟩
  unfold primaryFilter
  refine List.filter_congr (fun g hg => ?_)
  have h0 : g.socialNum = 0 :=
    group_social_zero soup g (dedupGroups_subset _ g hg)
  simp [h0]

theorem groups_social_free_witness :
    (⟨newsHrefs, 6, 0, 0, 6, 6, 25⟩ : AnchorGroup) ∈
        (groupAnchors (validAnchors ex3)).map mkGroup ∧
      (⟨newsHrefs, 6, 0, 0, 6, 6, 25⟩ : AnchorGroup).socialNum = 0 :=
  ⟨by decide,
    groups_social_free.1 ex3 ⟨newsHrefs, 6, 0, 0, 6, 6, 25⟩ (by decide)⟩

end NewsExtract
